import Mathlib

/-!
Verification of `src/utils/DayEventLayout.js` (single-day event layout core).

Shallow embedding conventions:
* JS numbers are modelled exactly: time instants and placement coordinates as `Int`,
  widths/offsets as `ℚ` (so `1.7` is `17/10`, `100 / columns` is exact division).
* A `{value, unit}` object is `Wd`.
* The `Event` proxy constructor resolves `slotMetrics.getRange` externally; we model its
  *output*: an `EvIn` record carrying `start`/`end` (placement space, here `pstart`/`pend`
  since `end` is reserved), `startMs`/`endMs`, `top`/`height`, plus the two payload fields
  the layout reads: `data.width` (an `Option Wd`; a JS object is always truthy) and the
  `eventType` getter's result (`Option String`; the getter returns `null` for any falsy
  value, so `some` always stands for a truthy string).
* Events are threaded through the pipeline as `(id, EvIn)` pairs where `id` is the
  position in the input list (standing for JS object identity).
* Mutation of proxies during clustering becomes a `Role` map `Nat → Role`; the
  container/row/leaf/grouped cross references are ids.
* A JS `TypeError` (e.g. reading `.end` of `null`, destructuring `this.row` of a grouped
  event) aborts `getStyledEvents`; such crashes are modelled by `Option`/`none`.
-/

namespace DayEventLayout

/-- A `{ value, unit }` width or offset object. -/
structure Wd where
  value : ℚ
  unit : String
deriving DecidableEq, Repr

/-- The constructed event proxy's immutable fields (source lines 3–21 plus the
`data.width` / `eventType` payload reads). -/
structure EvIn where
  /-- `this.start` : placement-space start (slot coordinates). -/
  pstart : Int
  /-- `this.end` : placement-space end. -/
  pend : Int
  /-- `this.startMs = +startDate`. -/
  startMs : Int
  /-- `this.endMs = +endDate`. -/
  endMs : Int
  /-- `this.top` (passed through). -/
  top : ℚ
  /-- `this.height` (passed through). -/
  height : ℚ
  /-- `this.data.width`, `some` iff truthy. -/
  dataWidth : Option Wd
  /-- the `eventType` getter's value: `some s` iff `this.data.eventType` is truthy. -/
  eventType : Option String
deriving DecidableEq, Repr

/-- An event together with its input position (object identity). -/
abbrev IdEv := Nat × EvIn

/-! ### The initial multi-key sort (source lines 136–140)

`orderBy(events, ['eventType', 'startMs', e => -e.endMs], ['desc', 'asc', 'asc'])`.
lodash's `compareAscending` sorts `null` *after* every string in ascending order, and a
`'desc'` column is a plain sign flip, so under `'desc'` a `null` `eventType` sorts
*before* every string key, and string keys sort in descending lexicographic order.
Ties on all three criteria fall back to the original index, i.e. the sort is stable.
We realise exactly this total preorder as `≤` on a lexicographic key and use stable
insertion sort (extensionally equal to lodash's index-tiebroken sort). -/

/-- Lexicographic comparison of codepoint lists (JS string relational comparison,
modulo the UTF-16 vs codepoint distinction beyond the BMP). -/
def charsCmp : List Char → List Char → Ordering
  | [], [] => Ordering.eq
  | [], _ :: _ => Ordering.lt
  | _ :: _, [] => Ordering.gt
  | a :: as, b :: bs =>
    if a.toNat < b.toNat then Ordering.lt
    else if b.toNat < a.toNat then Ordering.gt
    else charsCmp as bs

/-- JS string comparison. -/
def strCmp (a b : String) : Ordering := charsCmp a.data b.data

/-- Comparison of the `eventType` criterion under lodash `'desc'`: lodash's
`compareAscending` sorts `null` after every string (ascending), and `'desc'` is a plain
sign flip, so `null` sorts first and string keys sort in descending order. -/
def typeCmpDesc : Option String → Option String → Ordering
  | none, none => Ordering.eq
  | none, some _ => Ordering.lt
  | some _, none => Ordering.gt
  | some a, some b => (strCmp a b).swap

/-- Integer comparison. -/
def intCmp (a b : Int) : Ordering :=
  if a < b then Ordering.lt else if b < a then Ordering.gt else Ordering.eq

/-- The composite `orderBy` comparator: `eventType` desc (null first), `startMs` asc,
`e => -e.endMs` asc (i.e. `endMs` desc). -/
def renderCmp (a b : EvIn) : Ordering :=
  ((typeCmpDesc a.eventType b.eventType).then (intCmp a.startMs b.startMs)).then
    (intCmp b.endMs a.endMs)

/-- Comparator of the initial sort, as a (non-strict) relation on id-tagged events. -/
def renderLE (a b : IdEv) : Prop := renderCmp a.2 b.2 ≠ Ordering.gt

instance : DecidableRel renderLE := fun a b => by
  unfold renderLE; infer_instance

/-- `sortedByTime` (source line 136): the stable multi-key sort. -/
def sortedByTime (l : List IdEv) : List IdEv :=
  List.insertionSort renderLE l

/-! ### The reordering pass (source lines 142–167) -/

/-- The inner `for` scan of `sortByRender`: walk the remaining events; skip any `test`
with `event.endMs > test.startMs`; at the first non-skipped event: a truthy `eventType`
breaks the scan, index `0` breaks without a move, otherwise the event is spliced out.
Returns the moved event and the remainder without it.  `first` records `i = 0`. -/
def findMovableGo (endMs : Int) (first : Bool) : List IdEv → Option (IdEv × List IdEv)
  | [] => none
  | t :: ts =>
    if endMs > t.2.startMs then
      match findMovableGo endMs false ts with
      | none => none
      | some (m, ts') => some (m, t :: ts')
    else if t.2.eventType.isSome then none
    else if first then none
    else some (t, ts)

/-- The `while` loop of `sortByRender`: shift the head, push it, and (for ungrouped
events) possibly splice one later event right behind it.  `fuel ≥ length` suffices. -/
def renderLoop : Nat → List IdEv → List IdEv
  | 0, _ => []
  | _ + 1, [] => []
  | fuel + 1, e :: rest =>
    if e.2.eventType.isSome then e :: renderLoop fuel rest
    else
      match findMovableGo e.2.endMs true rest with
      | none => e :: renderLoop fuel rest
      | some (m, rest') => e :: m :: renderLoop fuel rest'

/-- `sortByRender` (source lines 135–170). -/
def sortByRender (l : List IdEv) : List IdEv :=
  renderLoop l.length (sortedByTime l)

/-! ### Clustering (source lines 172–269) -/

/-- The relationship fields attached to a proxy during clustering.  Exactly one of the
JS field sets {`rows`}, {`container`,`leaves`}, {`container`,`row`}, {`column`} is ever
set on one event; `column` stays `none` when the matrix loop never assigns it. -/
inductive Role where
  | unassigned
  | container (rows : List Nat)
  | row (containerId : Nat) (leaves : List Nat)
  | leaf (containerId : Nat) (rowId : Nat)
  | grouped (column : Option Nat)
deriving DecidableEq, Repr

/-- A slot row of a named group matrix: three slots (source keeps them as
`[event, null, null]`-style arrays of length 3). -/
abbrev Row3 := List (Option IdEv)

/-- Clustering state: the role map, the open `containerEvents` list and the
`namedContainerEvents` keyed matrices (assoc list in insertion order). -/
structure CState where
  roles : Nat → Role
  containers : List IdEv
  matrices : List (String × List Row3)

def initState : CState := ⟨fun _ => Role.unassigned, [], []⟩

/-- `onSameRow` (source lines 126–133).  `Math.abs (x) < d` is expressed as
`x.natAbs < d.toNat`, which agrees with it for every integer `d`. -/
def onSameRow (a b : EvIn) (minimumStartDifference : Int) : Prop :=
  (b.pstart - a.pstart).natAbs < minimumStartDifference.toNat ∨
    (a.pstart < b.pstart ∧ b.pstart < a.pend)

instance (a b : EvIn) (d : Int) : Decidable (onSameRow a b d) := by
  unfold onSameRow; infer_instance

/-- First empty slot of a matrix row (the `r === 0` placement). -/
def firstEmpty : List (Option IdEv) → Nat → Option Nat
  | [], _ => none
  | none :: _, c => some c
  | some _ :: rest, c => firstEmpty rest (c + 1)

/-- The max-gap slot scan for matrix rows `r ≥ 1` (source lines 210–225):
for each empty slot `c`, `gap = event.start - matrix[r-1][c].end`; keep the first
strictly larger gap; `matrix[r-1][c]` being `null` is a JS `TypeError` (`none`).
Result: `none` = crash, `some none` = no slot chosen, `some (some c)` = slot `c`. -/
def bestSlotGo (estart : Int) :
    List (Option IdEv) → List (Option IdEv) → Nat → Option Nat → Int → Option (Option Nat)
  | [], _, _, bc, _ => some bc
  | some _ :: rs, _ :: ps, c, bc, bg => bestSlotGo estart rs ps (c + 1) bc bg
  | none :: _, none :: _, _, _, _ => none
  | none :: rs, some p :: ps, c, bc, bg =>
    let gap := estart - p.2.pend
    if bg < gap then bestSlotGo estart rs ps (c + 1) (some c) gap
    else bestSlotGo estart rs ps (c + 1) bc bg
  | _ :: _, [], _, _, _ => none

/-- The matrix placement loop (source lines 206–231): scan slot rows from the top,
appending a fresh `[null, null, null]` row when `r` reaches the row count.  Returns the
updated matrix and the assigned column, or `none` on the `null.end` crash (the `-99999`
sentinel makes that reachable).  Fuel `matrix.length + 3` always suffices. -/
def placeGroupedGo (ev : IdEv) : Nat → Nat → List Row3 → Option (List Row3 × Nat)
  | 0, _, _ => none
  | fuel + 1, r, matrix =>
    let matrix := if r = matrix.length then matrix ++ [[none, none, none]] else matrix
    match matrix[r]? with
    | none => none
    | some rowr =>
      if r = 0 then
        match firstEmpty rowr 0 with
        | some c => some (matrix.set r (rowr.set c (some ev)), c)
        | none => placeGroupedGo ev fuel (r + 1) matrix
      else
        match matrix[r - 1]? with
        | none => none
        | some prev =>
          match bestSlotGo ev.2.pstart rowr prev 0 none (-99999) with
          | none => none
          | some none => placeGroupedGo ev fuel (r + 1) matrix
          | some (some c) => some (matrix.set r (rowr.set c (some ev)), c)

/-- Look up a named matrix. -/
def lookupMatrix (ms : List (String × List Row3)) (k : String) : Option (List Row3) :=
  (ms.find? (fun p => p.1 = k)).map Prod.snd

/-- Replace the named matrix (key is present). -/
def setMatrix (ms : List (String × List Row3)) (k : String) (m : List Row3) :
    List (String × List Row3) :=
  ms.map (fun p => if p.1 = k then (k, m) else p)

/-- `containerEvents.find(...)` (source lines 234–238). -/
def findContainer (d : Int) (cs : List IdEv) (e : EvIn) : Option IdEv :=
  cs.find? (fun c =>
    decide (e.pstart < c.2.pend) || decide ((e.pstart - c.2.pstart).natAbs < d.toNat))

/-- The backwards row search (source lines 253–258): first row, scanning from the most
recently added, that satisfies `onSameRow`. -/
def findRow (base : List EvIn) (d : Int) (rows : List Nat) (e : EvIn) : Option Nat :=
  rows.reverse.find? (fun rid =>
    match base[rid]? with
    | some re => decide (onSameRow re e d)
    | none => false)

/-- Update one id in the role map. -/
def setRole (roles : Nat → Role) (i : Nat) (r : Role) : Nat → Role :=
  fun j => if j = i then r else roles j

/-- Append `e` to a container's `rows` (guarded by the container actually having the
`rows` field, as in the source object model). -/
def pushRow (roles : Nat → Role) (cid e : Nat) : Nat → Role :=
  match roles cid with
  | Role.container rs => setRole roles cid (Role.container (rs ++ [e]))
  | _ => roles

/-- Append `e` to a row's `leaves`. -/
def pushLeaf (roles : Nat → Role) (rid e : Nat) : Nat → Role :=
  match roles rid with
  | Role.row c ls => setRole roles rid (Role.row c (ls ++ [e]))
  | _ => roles

/-- One iteration of the clustering loop (source lines 191–269) for event `ie`. -/
def clusterStep (base : List EvIn) (d : Int) (st : CState) (ie : IdEv) : Option CState :=
  match ie.2.eventType with
  | some k =>
    match lookupMatrix st.matrices k with
    | none =>
      -- first event of this key: column 0, matrix [[event, null, null]]
      some { st with
        roles := setRole st.roles ie.1 (Role.grouped (some 0)),
        matrices := st.matrices ++ [(k, [[some ie, none, none]])] }
    | some m =>
      match placeGroupedGo ie (m.length + 3) 0 m with
      | none => none
      | some (m', c) =>
        some { st with
          roles := setRole st.roles ie.1 (Role.grouped (some c)),
          matrices := setMatrix st.matrices k m' }
  | none =>
    match findContainer d st.containers ie.2 with
    | none =>
      -- this event is a container
      some { st with
        roles := setRole st.roles ie.1 (Role.container []),
        containers := st.containers ++ [ie] }
    | some c =>
      match st.roles c.1 with
      | Role.container rs =>
        match findRow base d rs ie.2 with
        | some rid =>
          some { st with
            roles := setRole (pushLeaf st.roles rid ie.1) ie.1 (Role.leaf c.1 rid) }
        | none =>
          some { st with
            roles := setRole (pushRow st.roles c.1 ie.1) ie.1 (Role.row c.1 []) }
      | _ => none
  -- the found container always carries `rows`; any other role is unreachable

/-- The whole clustering pass over the render-ordered events. -/
def clusterAll (base : List EvIn) (d : Int) (l : List IdEv) : Option CState :=
  l.foldlM (clusterStep base d) initState

/-! ### Executable rational arithmetic

`Rat.mul` / `Rat.inv` are `@[irreducible]`, which blocks kernel evaluation of concrete
runs, so the embedding computes with `Rat.divInt`-based wrappers.  The bridge lemmas
below identify them with the ordinary `ℚ` operations, so theorem statements can use
ordinary arithmetic. -/

def qAdd (a b : ℚ) : ℚ := Rat.divInt (a.num * b.den + b.num * a.den) (a.den * b.den)

def qSub (a b : ℚ) : ℚ := Rat.divInt (a.num * b.den - b.num * a.den) (a.den * b.den)

def qMul (a b : ℚ) : ℚ := Rat.divInt (a.num * b.num) (a.den * b.den)

def qDiv (a b : ℚ) : ℚ := Rat.divInt (a.num * b.den) (a.den * b.num)

def qLeB (a b : ℚ) : Bool := a.num * (b.den : Int) ≤ b.num * (a.den : Int)

theorem qDen_ne (a : ℚ) : ((a.den : ℚ)) ≠ 0 := by exact_mod_cast a.den_nz

theorem qAdd_eq (a b : ℚ) : qAdd a b = a + b := by
  rw [qAdd, Rat.divInt_eq_div]
  push_cast
  conv_rhs => rw [← Rat.num_div_den a, ← Rat.num_div_den b]
  rw [div_add_div _ _ (qDen_ne a) (qDen_ne b)]
  ring_nf

theorem qSub_eq (a b : ℚ) : qSub a b = a - b := by
  rw [qSub, Rat.divInt_eq_div]
  push_cast
  conv_rhs => rw [← Rat.num_div_den a, ← Rat.num_div_den b]
  rw [div_sub_div _ _ (qDen_ne a) (qDen_ne b)]
  ring_nf

theorem qMul_eq (a b : ℚ) : qMul a b = a * b := by
  rw [qMul, Rat.divInt_eq_div]
  push_cast
  conv_rhs => rw [← Rat.num_div_den a, ← Rat.num_div_den b]
  field_simp

theorem qDiv_eq (a b : ℚ) : qDiv a b = a / b := by
  rcases eq_or_ne b 0 with rfl | hb
  · simp [qDiv, Rat.divInt_eq_div]
  · rw [qDiv, Rat.divInt_eq_div]
    push_cast
    conv_rhs => rw [← Rat.num_div_den a, ← Rat.num_div_den b]
    have hbn : ((b.num : ℚ)) ≠ 0 := by
      exact_mod_cast Rat.num_ne_zero.mpr hb
    field_simp

theorem qLeB_iff (a b : ℚ) : qLeB a b = true ↔ a ≤ b := by
  rw [qLeB, decide_eq_true_iff]
  exact Rat.le_def.symm

/-- JS `Math.min` on two rationals (executable). -/
def ratMin (a b : ℚ) : ℚ := if qLeB b a then b else a

theorem ratMin_eq (a b : ℚ) : ratMin a b = min a b := by
  by_cases hc : qLeB b a = true
  · rw [ratMin, if_pos hc]
    exact (min_eq_right ((qLeB_iff b a).mp hc)).symm
  · rw [ratMin, if_neg hc]
    have hnb : ¬ b ≤ a := fun hle => hc ((qLeB_iff b a).mpr hle)
    exact (min_eq_left (le_of_not_le hnb)).symm

/-! ### The geometry getters (source lines 26–115) -/

/-- `row.leaves.length` for an id (rows always carry `leaves`). -/
def leavesCount (roles : Nat → Role) (r : Nat) : Nat :=
  match roles r with
  | Role.row _ ls => ls.length
  | _ => 0

/-- The container's column count (source lines 33–40):
`rows.reduce((max, row) => Math.max(max, row.leaves.length + 1), 0) + 1`. -/
def containerCols (roles : Nat → Role) (rows : List Nat) : Nat :=
  (rows.foldl (fun m r => max m (leavesCount roles r + 1)) 0) + 1

/-- The `_width` getter (source lines 26–53), with fuel for the bounded
leaf → row → container reference chain.  `none` models a JS crash: a grouped (or
unclustered) event without a fixed `data.width` reads `this.container._width` of
`undefined`. -/
def uWidthF (base : List EvIn) (roles : Nat → Role) : Nat → Nat → Option Wd
  | 0, _ => none
  | fuel + 1, i =>
    match base[i]? with
    | none => none
    | some e =>
      match e.dataWidth with
      | some w => some w
      | none =>
        match roles i with
        | Role.container rs => some ⟨qDiv 100 ((containerCols roles rs : Nat) : ℚ), "%"⟩
        | Role.row c ls =>
          match uWidthF base roles fuel c with
          | none => none
          | some cw => some ⟨qDiv (qSub 100 cw.value) ((ls.length + 1 : Nat) : ℚ), "%"⟩
        | Role.leaf _ r => uWidthF base roles fuel r
        | _ => none

/-- `_width`. -/
def uWidth (base : List EvIn) (roles : Nat → Role) (i : Nat) : Option Wd :=
  uWidthF base roles 3 i

/-- JS `Array.prototype.indexOf` on a list of ids (`-1` when absent). -/
def jsIndexOf (x : Nat) : List Nat → Int
  | [] => -1
  | y :: ys =>
    if y = x then 0
    else
      let r := jsIndexOf x ys
      if r = -1 then -1 else r + 1

/-- The `width` getter (source lines 59–82).  Non-percent units return unchanged;
percent units grow by `min(100, value * 1.7)` for containers, rows with leaves, and
non-last leaves.  A grouped event with a percent width falls through to
`const { leaves } = this.row` with `this.row` undefined: a crash (`none`). -/
def widthOf (base : List EvIn) (roles : Nat → Role) (i : Nat) : Option Wd :=
  match uWidth base roles i with
  | none => none
  | some no =>
    if no.unit ≠ "%" then some no
    else
      let ov : Wd := ⟨ratMin 100 (qMul no.value (Rat.divInt 17 10)), no.unit⟩
      match roles i with
      | Role.container _ => some ov
      | Role.row _ ls => some (if 0 < ls.length then ov else no)
      | Role.leaf _ r =>
        match roles r with
        | Role.row _ ls => some (if jsIndexOf i ls = (ls.length : Int) - 1 then no else ov)
        | _ => none
      | _ => none

/-- A row's `xOffset` (source lines 95–106): its container's `_width`, with the `2`
padding added when the unit is `px`. -/
def xOffsetRow (base : List EvIn) (roles : Nat → Role) (r : Nat) : Option Wd :=
  match roles r with
  | Role.row cid _ =>
    match uWidth base roles cid with
    | none => none
    | some cw => if cw.unit = "px" then some ⟨qAdd cw.value 2, cw.unit⟩ else some cw
  | _ => none

/-- The `xOffset` getter (source lines 84–115). -/
def xOffsetOf (base : List EvIn) (roles : Nat → Role) (i : Nat) : Option Wd :=
  match roles i with
  | Role.container _ => some ⟨0, ""⟩
  | Role.grouped (some c) =>
    match uWidth base roles i with
    | none => none
    | some w => some ⟨qMul (qAdd w.value 2) ((c : Nat) : ℚ), w.unit⟩
  | Role.grouped none => none
  | Role.row _ _ => xOffsetRow base roles i
  | Role.leaf _ r =>
    match roles r with
    | Role.row _ ls =>
      match xOffsetRow base roles r, uWidth base roles r with
      | some xo, some rw =>
        let off := if rw.unit = "px" then qAdd xo.value 2 else xo.value
        some ⟨qAdd off (qMul ((jsIndexOf i ls + 1 : Int) : ℚ) rw.value), rw.unit⟩
      | _, _ => none
    | _ => none
  | Role.unassigned => none

/-! ### Output assembly (source lines 172–281) -/

/-- One `{ event, style: { top, height, width, xOffset } }` output record; `id` stands
for the original payload reference. -/
structure Styled where
  id : Nat
  top : ℚ
  height : ℚ
  width : Wd
  xOffset : Wd
deriving DecidableEq, Repr

/-- The output `map` (source lines 272–280): resolve each event's style in render
order; a crash in any getter aborts the whole call. -/
def styleAll (base : List EvIn) (roles : Nat → Role) : List IdEv → Option (List Styled)
  | [] => some []
  | ie :: rest =>
    (widthOf base roles ie.1).bind fun w =>
      (xOffsetOf base roles ie.1).bind fun xo =>
        (styleAll base roles rest).map fun out =>
          ⟨ie.1, ie.2.top, ie.2.height, w, xo⟩ :: out

/-- `getStyledEvents` (source lines 172–281): wrap with ids, render-order, cluster,
then emit each event's resolved style in render order.  `none` models a thrown
`TypeError` anywhere in the pipeline. -/
def getStyledEvents (d : Int) (base : List EvIn) : Option (List Styled) :=
  let ordered := sortByRender base.enum
  match clusterAll base d ordered with
  | none => none
  | some st => styleAll base st.roles ordered

/-! ### Comparator laws -/

theorem charsCmp_swap : ∀ a b : List Char, charsCmp b a = (charsCmp a b).swap
  | [], [] => rfl
  | [], _ :: _ => rfl
  | _ :: _, [] => rfl
  | a :: as, b :: bs => by
    simp only [charsCmp]
    rcases Nat.lt_trichotomy a.toNat b.toNat with h | h | h
    · rw [if_neg (by omega), if_pos h, if_pos h]; rfl
    · rw [if_neg (by omega), if_neg (by omega), if_neg (by omega), if_neg (by omega)]
      exact charsCmp_swap as bs
    · rw [if_pos h, if_neg (by omega), if_pos h]; rfl

theorem Char.toNat_inj' {a b : Char} (h : a.toNat = b.toNat) : a = b := by
  apply Char.eq_of_val_eq
  apply UInt32.eq_of_toBitVec_eq
  exact BitVec.eq_of_toNat_eq h

theorem charsCmp_eq_iff : ∀ a b : List Char, charsCmp a b = Ordering.eq ↔ a = b
  | [], [] => by simp [charsCmp]
  | [], _ :: _ => by simp [charsCmp]
  | _ :: _, [] => by simp [charsCmp]
  | a :: as, b :: bs => by
    simp only [charsCmp]
    rcases Nat.lt_trichotomy a.toNat b.toNat with h | h | h
    · rw [if_pos h]
      simp only [List.cons.injEq]
      constructor
      · intro hc; cases hc
      · rintro ⟨rfl, -⟩; omega
    · rw [if_neg (by omega), if_neg (by omega)]
      rw [charsCmp_eq_iff as bs]
      simp only [List.cons.injEq]
      constructor
      · intro hc; exact ⟨Char.toNat_inj' h, hc⟩
      · rintro ⟨-, h2⟩; exact h2
    · rw [if_neg (by omega), if_pos h]
      simp only [List.cons.injEq]
      constructor
      · intro hc; cases hc
      · rintro ⟨rfl, -⟩; omega

theorem charsCmp_lt_trans :
    ∀ a b c : List Char, charsCmp a b = Ordering.lt → charsCmp b c = Ordering.lt →
      charsCmp a c = Ordering.lt
  | _, [], [] => fun _ h2 => by cases h2
  | _, _ :: _, [] => fun _ h2 => by cases h2
  | [], [], _ :: _ => fun h1 _ => by cases h1
  | _ :: _, [], _ :: _ => fun h1 _ => by cases h1
  | [], _ :: _, _ :: _ => fun _ _ => rfl
  | a :: as, b :: bs, c :: cs => fun h1 h2 => by
    simp only [charsCmp] at h1 h2 ⊢
    rcases Nat.lt_trichotomy a.toNat b.toNat with hab | hab | hab
    · rcases Nat.lt_trichotomy b.toNat c.toNat with hbc | hbc | hbc
      · rw [if_pos (by omega)]
      · rw [if_pos (by omega)]
      · rw [if_neg (by omega), if_pos hbc] at h2; cases h2
    · rcases Nat.lt_trichotomy b.toNat c.toNat with hbc | hbc | hbc
      · rw [if_pos (by omega)]
      · rw [if_neg (by omega), if_neg (by omega)] at h1
        rw [if_neg (by omega), if_neg (by omega)] at h2
        rw [if_neg (by omega), if_neg (by omega)]
        exact charsCmp_lt_trans as bs cs h1 h2
      · rw [if_neg (by omega), if_pos hbc] at h2; cases h2
    · rw [if_neg (by omega), if_pos hab] at h1; cases h1

theorem strCmp_swap (a b : String) : strCmp b a = (strCmp a b).swap :=
  charsCmp_swap a.data b.data

theorem strCmp_eq_iff (a b : String) : strCmp a b = Ordering.eq ↔ a = b := by
  rw [strCmp, charsCmp_eq_iff]
  constructor
  · intro h
    cases a; cases b
    exact congrArg String.mk h
  · rintro rfl; rfl

theorem typeCmpDesc_swap : ∀ a b : Option String, typeCmpDesc b a = (typeCmpDesc a b).swap
  | none, none => rfl
  | none, some _ => rfl
  | some _, none => rfl
  | some a, some b => by
    simp only [typeCmpDesc]
    rw [strCmp_swap]

theorem typeCmpDesc_eq_iff : ∀ a b : Option String, typeCmpDesc a b = Ordering.eq ↔ a = b
  | none, none => by simp [typeCmpDesc]
  | none, some _ => by simp [typeCmpDesc]
  | some _, none => by simp [typeCmpDesc]
  | some a, some b => by
    simp only [typeCmpDesc]
    have hsw : (strCmp a b).swap = Ordering.eq ↔ strCmp a b = Ordering.eq := by
      cases strCmp a b <;> decide
    rw [hsw, strCmp_eq_iff]
    simp

theorem typeCmpDesc_lt_trans :
    ∀ a b c : Option String, typeCmpDesc a b = Ordering.lt → typeCmpDesc b c = Ordering.lt →
      typeCmpDesc a c = Ordering.lt
  | _, none, none => fun _ h2 => by cases h2
  | _, some _, none => fun _ h2 => by cases h2
  | none, none, some _ => fun h1 _ => by cases h1
  | some _, none, some _ => fun h1 _ => by cases h1
  | none, some _, some _ => fun _ _ => rfl
  | some a, some b, some c => fun h1 h2 => by
    simp only [typeCmpDesc] at h1 h2 ⊢
    -- `.swap = lt` means the underlying comparison is `gt`
    have h1' : strCmp a b = Ordering.gt := by
      cases hab : strCmp a b <;> rw [hab] at h1 <;> first | rfl | cases h1
    have h2' : strCmp b c = Ordering.gt := by
      cases hbc : strCmp b c <;> rw [hbc] at h2 <;> first | rfl | cases h2
    have hba : strCmp b a = Ordering.lt := by rw [strCmp_swap, h1']; rfl
    have hcb : strCmp c b = Ordering.lt := by rw [strCmp_swap, h2']; rfl
    have hca := charsCmp_lt_trans c.data b.data a.data hcb hba
    have hac : strCmp a c = Ordering.gt := by
      rw [strCmp_swap c a, show strCmp c a = Ordering.lt from hca]
      rfl
    rw [hac]; rfl

theorem intCmp_swap (a b : Int) : intCmp b a = (intCmp a b).swap := by
  simp only [intCmp]
  rcases Int.lt_trichotomy a b with h | h | h
  · rw [if_neg (by omega), if_pos h, if_pos h]; rfl
  · rw [if_neg (by omega), if_neg (by omega), if_neg (by omega), if_neg (by omega)]; rfl
  · rw [if_pos h, if_neg (by omega), if_pos h]; rfl

theorem intCmp_eq_iff (a b : Int) : intCmp a b = Ordering.eq ↔ a = b := by
  simp only [intCmp]
  rcases Int.lt_trichotomy a b with h | h | h
  · rw [if_pos h]; constructor
    · intro hc; cases hc
    · intro hc; omega
  · rw [if_neg (by omega), if_neg (by omega)]; simp [h]
  · rw [if_neg (by omega), if_pos h]; constructor
    · intro hc; cases hc
    · intro hc; omega

theorem intCmp_lt_iff (a b : Int) : intCmp a b = Ordering.lt ↔ a < b := by
  simp only [intCmp]
  rcases Int.lt_trichotomy a b with h | h | h
  · rw [if_pos h]; simp [h]
  · rw [if_neg (by omega), if_neg (by omega)]
    constructor
    · intro hc; cases hc
    · intro hc; omega
  · rw [if_neg (by omega), if_pos h]
    constructor
    · intro hc; cases hc
    · intro hc; omega

theorem then_ne_gt {o p : Ordering} :
    o.then p ≠ Ordering.gt ↔ o = Ordering.lt ∨ (o = Ordering.eq ∧ p ≠ Ordering.gt) := by
  cases o <;> simp [Ordering.then]

theorem then_eq_eq {o p : Ordering} :
    o.then p = Ordering.eq ↔ o = Ordering.eq ∧ p = Ordering.eq := by
  cases o <;> simp [Ordering.then]

theorem then_eq_lt {o p : Ordering} :
    o.then p = Ordering.lt ↔ o = Ordering.lt ∨ (o = Ordering.eq ∧ p = Ordering.lt) := by
  cases o <;> simp [Ordering.then]

theorem intCmp_ne_gt_iff (a b : Int) : intCmp a b ≠ Ordering.gt ↔ a ≤ b := by
  simp only [intCmp]
  rcases Int.lt_trichotomy a b with h | h | h
  · rw [if_pos h]
    constructor
    · intro _; omega
    · intro _ hc; cases hc
  · rw [if_neg (by omega), if_neg (by omega)]
    constructor
    · intro _; omega
    · intro _ hc; cases hc
  · rw [if_neg (by omega), if_pos h]
    constructor
    · intro hc; exact absurd rfl hc
    · intro hc; omega

/-- The comparator's non-strict order in terms of the three criteria. -/
theorem renderCmp_ne_gt_iff (a b : EvIn) :
    renderCmp a b ≠ Ordering.gt ↔
      typeCmpDesc a.eventType b.eventType = Ordering.lt ∨
        (a.eventType = b.eventType ∧
          (a.startMs < b.startMs ∨ (a.startMs = b.startMs ∧ b.endMs ≤ a.endMs))) := by
  rw [renderCmp, then_ne_gt, then_eq_lt, then_eq_eq]
  rw [typeCmpDesc_eq_iff, intCmp_lt_iff, intCmp_eq_iff, intCmp_ne_gt_iff]
  tauto

theorem renderCmp_eq_iff (a b : EvIn) :
    renderCmp a b = Ordering.eq ↔
      a.eventType = b.eventType ∧ a.startMs = b.startMs ∧ a.endMs = b.endMs := by
  rw [renderCmp, then_eq_eq, then_eq_eq, typeCmpDesc_eq_iff, intCmp_eq_iff, intCmp_eq_iff]
  constructor
  · rintro ⟨⟨h1, h2⟩, h3⟩; exact ⟨h1, h2, h3.symm⟩
  · rintro ⟨h1, h2, h3⟩; exact ⟨⟨h1, h2⟩, h3.symm⟩

theorem then_swap (o p : Ordering) : (o.then p).swap = o.swap.then p.swap := by
  cases o <;> rfl

theorem renderCmp_swap (a b : EvIn) : renderCmp b a = (renderCmp a b).swap := by
  rw [renderCmp, renderCmp, then_swap, then_swap, ← typeCmpDesc_swap, ← intCmp_swap,
    ← intCmp_swap]

theorem renderLE_total : ∀ a b : IdEv, renderLE a b ∨ renderLE b a := by
  intro a b
  by_cases h : renderCmp a.2 b.2 = Ordering.gt
  · right
    rw [renderLE, renderCmp_swap, h]
    intro hc; cases hc
  · exact Or.inl h

theorem renderLE_trans :
    ∀ a b c : IdEv, renderLE a b → renderLE b c → renderLE a c := by
  intro a b c hab hbc
  rw [renderLE, renderCmp_ne_gt_iff] at hab hbc ⊢
  rcases hab with h1 | ⟨he1, h1⟩
  · rcases hbc with h2 | ⟨he2, h2⟩
    · exact Or.inl (typeCmpDesc_lt_trans _ _ _ h1 h2)
    · exact Or.inl (he2 ▸ h1)
  · rcases hbc with h2 | ⟨he2, h2⟩
    · exact Or.inl (he1 ▸ h2)
    · refine Or.inr ⟨he1.trans he2, ?_⟩
      rcases h1 with h1 | ⟨hs1, hd1⟩ <;> rcases h2 with h2 | ⟨hs2, hd2⟩
      · exact Or.inl (by omega)
      · exact Or.inl (by omega)
      · exact Or.inl (by omega)
      · exact Or.inr ⟨by omega, by omega⟩

instance : IsTotal IdEv renderLE := ⟨renderLE_total⟩

instance : IsTrans IdEv renderLE := ⟨renderLE_trans⟩

/-! ### Stability of the initial sort -/

/-- "Same sort key as the fixed event `k`" (equality on all three sort criteria). -/
def sameKeyB (k : EvIn) (t : IdEv) : Bool := decide (renderCmp k t.2 = Ordering.eq)

theorem sameKeyB_fields {k : EvIn} {t : IdEv} (h : sameKeyB k t = true) :
    k.eventType = t.2.eventType ∧ k.startMs = t.2.startMs ∧ k.endMs = t.2.endMs := by
  rw [sameKeyB, decide_eq_true_iff, renderCmp_eq_iff] at h
  exact h

theorem sameKeyB_le {k : EvIn} {x y : IdEv}
    (hx : sameKeyB k x = true) (hy : sameKeyB k y = true) : renderLE x y := by
  obtain ⟨h1, h2, h3⟩ := sameKeyB_fields hx
  obtain ⟨h1', h2', h3'⟩ := sameKeyB_fields hy
  rw [renderLE]
  intro hc
  rw [show renderCmp x.2 y.2 = Ordering.eq from (renderCmp_eq_iff _ _).mpr
    ⟨h1 ▸ h1', h2 ▸ h2', h3 ▸ h3'⟩] at hc
  cases hc

theorem sameKeyB_startMs {k : EvIn} {x y : IdEv}
    (hx : sameKeyB k x = true) (hy : sameKeyB k y = true) :
    x.2.startMs = y.2.startMs := by
  obtain ⟨-, h2, -⟩ := sameKeyB_fields hx
  obtain ⟨-, h2', -⟩ := sameKeyB_fields hy
  omega

theorem filter_orderedInsert (p : IdEv → Bool) (x : IdEv)
    (hp : p x = true → ∀ y, p y = true → renderLE x y) :
    ∀ l : List IdEv, (List.orderedInsert renderLE x l).filter p =
      if p x then x :: l.filter p else l.filter p
  | [] => by
    simp only [List.orderedInsert_nil, List.filter]
    cases hpx : p x <;> simp [hpx]
  | y :: l => by
    simp only [List.orderedInsert]
    by_cases hle : renderLE x y
    · rw [if_pos hle]
      simp [List.filter_cons]
    · rw [if_neg hle, List.filter_cons, List.filter_cons,
        filter_orderedInsert p x hp l]
      cases hpx : p x
      · simp [hpx]
      · have hpy : p y = false := by
          cases hpy2 : p y
          · rfl
          · exact absurd (hp hpx y hpy2) hle
        simp [hpx, hpy]

theorem filter_sortedByTime (p : IdEv → Bool)
    (hp : ∀ x y, p x = true → p y = true → renderLE x y) :
    ∀ l : List IdEv, (sortedByTime l).filter p = l.filter p
  | [] => rfl
  | x :: l => by
    show (List.orderedInsert renderLE x (List.insertionSort renderLE l)).filter p = _
    rw [filter_orderedInsert p x (fun hx y hy => hp x y hx hy) (List.insertionSort renderLE l)]
    rw [show (List.insertionSort renderLE l).filter p = l.filter p from
      filter_sortedByTime p hp l]
    rw [List.filter_cons]

/-! ### The reordering pass: structure lemmas -/

theorem findMovableGo_eq (endMs : Int) :
    ∀ (first : Bool) (l : List IdEv) (m : IdEv) (l' : List IdEv),
      findMovableGo endMs first l = some (m, l') →
      ∃ u v, l = u ++ m :: v ∧ l' = u ++ v ∧ (∀ t ∈ u, endMs > t.2.startMs) ∧
        ¬(endMs > m.2.startMs) ∧ m.2.eventType = none
  | _, [], _, _ => by intro h; cases h
  | first, t :: ts, m, l' => by
    intro h
    rw [findMovableGo] at h
    by_cases hskip : endMs > t.2.startMs
    · rw [if_pos hskip] at h
      match hrec : findMovableGo endMs false ts with
      | none => rw [hrec] at h; cases h
      | some (m', ts') =>
        rw [hrec] at h
        injection h with h
        injection h with h1 h2
        obtain ⟨u, v, hl, hl', hu, hm, hty⟩ := findMovableGo_eq endMs false ts m' ts' hrec
        subst h1; subst h2
        refine ⟨t :: u, v, by simp [hl], by simp [hl'], ?_, hm, hty⟩
        intro z hz
        rcases List.mem_cons.mp hz with rfl | hz
        · exact hskip
        · exact hu z hz
    · rw [if_neg hskip] at h
      by_cases hty : t.2.eventType.isSome
      · rw [if_pos hty] at h; cases h
      · rw [if_neg hty] at h
        by_cases hf : first
        · rw [if_pos hf] at h; cases h
        · rw [if_neg hf] at h
          injection h with h
          injection h with h1 h2
          subst h1; subst h2
          refine ⟨[], ts, rfl, rfl, ?_, hskip, Option.not_isSome_iff_eq_none.mp hty⟩
          intro z hz
          exact absurd hz (List.not_mem_nil z)

theorem renderLoop_filter (p : IdEv → Bool)
    (hp : ∀ t m : IdEv, p t = true → p m = true → t.2.startMs = m.2.startMs) :
    ∀ (fuel : Nat) (l : List IdEv), l.length ≤ fuel →
      (renderLoop fuel l).filter p = l.filter p
  | 0, l => by
    intro h
    rw [Nat.le_zero] at h
    rw [List.length_eq_zero.mp h]
    rfl
  | fuel + 1, [] => by intro _; rfl
  | fuel + 1, e :: rest => by
    intro hlen
    have hlen' : rest.length ≤ fuel := Nat.le_of_succ_le_succ hlen
    rw [renderLoop]
    by_cases hty : e.2.eventType.isSome
    · rw [if_pos hty, List.filter_cons, List.filter_cons,
        renderLoop_filter p hp fuel rest hlen']
    · rw [if_neg hty]
      match hmv : findMovableGo e.2.endMs true rest with
      | none =>
        rw [List.filter_cons, List.filter_cons, renderLoop_filter p hp fuel rest hlen']
      | some (m, rest') =>
        obtain ⟨u, v, hl, hl', hu, hm, -⟩ := findMovableGo_eq _ _ _ _ _ hmv
        have hlen'' : rest'.length ≤ fuel := by
          rw [hl', List.length_append]
          rw [hl, List.length_append, List.length_cons] at hlen'
          omega
        rw [List.filter_cons, List.filter_cons, List.filter_cons,
          renderLoop_filter p hp fuel rest' hlen'', hl, hl']
        have key : (m :: (u ++ v)).filter p = (u ++ m :: v).filter p := by
          cases hpm : p m
          · rw [List.filter_cons, hpm, List.filter_append, List.filter_append,
              List.filter_cons, hpm]
            simp
          · have hfu : u.filter p = [] := by
              rw [List.filter_eq_nil_iff]
              intro t ht
              cases hpt : p t
              · simp
              · exact absurd (hp t m hpt hpm ▸ hu t ht) hm
            rw [List.filter_cons, hpm, List.filter_append, List.filter_append,
              List.filter_cons, hpm, hfu]
            simp
        rw [show (if p m = true then m :: List.filter p (u ++ v) else List.filter p (u ++ v)) =
          List.filter p (u ++ m :: v) from by rw [← List.filter_cons]; exact key]

/-! ### Claim C2 -/

/-- C2 (amended): the initial multi-key sort (`orderBy` stage of `sortByRender`) is a
permutation of its input, totally ordered by the comparator `renderLE` — which, per
lodash's `compareAscending` under `['desc','asc','asc']`, puts *ungrouped* (`null` key)
events first, then grouped events by key in descending string order, then ascending
`startMs`, then descending `endMs` — and it is stable: events equal on all three
criteria keep their original relative order (subsequence-wise).  (The claim's clause
"events carrying a grouping key sort before ungrouped events" is refuted by
`c2_counterexample`; lodash sorts `null` first under `'desc'`.  The subsequent
reordering pass may further move ungrouped events.) -/
theorem c2_sorter_sorted_and_stable (l : List IdEv) :
    (sortedByTime l).Perm l ∧
    List.Sorted renderLE (sortedByTime l) ∧
    ∀ k : EvIn, (sortedByTime l).filter (sameKeyB k) = l.filter (sameKeyB k) := by
  refine ⟨List.perm_insertionSort renderLE l, List.sorted_insertionSort renderLE l, ?_⟩
  intro k
  exact filter_sortedByTime (sameKeyB k) (fun x y hx hy => sameKeyB_le hx hy) l

/-- A grouped event (truthy `eventType`, fixed `px` width so nothing crashes). -/
def cexGrouped : EvIn := ⟨0, 10, 0, 10, 0, 0, some ⟨30, "px"⟩, some "a"⟩

/-- An ungrouped event with the same instants. -/
def cexPlain : EvIn := ⟨0, 10, 0, 10, 0, 0, none, none⟩

/-- C2 counterexample: with a grouped event first in the input and an ungrouped event
with identical instants second, the render-order sorter emits the *ungrouped* event
first (ids `[1, 0]`), not the grouped one as the claim's priority (1) demands. -/
theorem c2_counterexample :
    cexGrouped.eventType = some "a" ∧ cexPlain.eventType = none ∧
    (sortByRender [(0, cexGrouped), (1, cexPlain)]).map Prod.fst = [1, 0] ∧
    ¬(sortByRender [(0, cexGrouped), (1, cexPlain)]).map Prod.fst = [0, 1] := by
  decide

/-! ### Claim C4 -/

/-- C4: for any event whose effective width (`_width`) is a percentage, with
`overlapWidth = min(100, effectiveWidth * 1.7)` (the executable form
`ratMin 100 (qMul v (Rat.divInt 17 10))`, identified with `min 100 (v * (17/10))` by the
last conjunct): a container's final width is always `overlapWidth`; a row's final width
is `overlapWidth` iff it has at least one leaf, else `effectiveWidth`; a leaf's final
width is `overlapWidth` unless its `indexOf` in its row's leaves is the last position,
in which case `effectiveWidth`. -/
theorem c4_width_growth_rules :
    (∀ base roles i rs v, roles i = Role.container rs →
      uWidth base roles i = some ⟨v, "%"⟩ →
      widthOf base roles i = some ⟨ratMin 100 (qMul v (Rat.divInt 17 10)), "%"⟩) ∧
    (∀ base roles i c ls v, roles i = Role.row c ls →
      uWidth base roles i = some ⟨v, "%"⟩ →
      widthOf base roles i = some (if 0 < ls.length
        then ⟨ratMin 100 (qMul v (Rat.divInt 17 10)), "%"⟩ else ⟨v, "%"⟩)) ∧
    (∀ base roles i c r c' ls v, roles i = Role.leaf c r → roles r = Role.row c' ls →
      uWidth base roles i = some ⟨v, "%"⟩ →
      widthOf base roles i = some (if jsIndexOf i ls = (ls.length : Int) - 1
        then ⟨v, "%"⟩ else ⟨ratMin 100 (qMul v (Rat.divInt 17 10)), "%"⟩)) ∧
    (∀ v : ℚ, ratMin 100 (qMul v (Rat.divInt 17 10)) = min 100 (v * (17 / 10))) := by
  refine ⟨?_, ?_, ?_, ?_⟩
  · intro base roles i rs v hrole hu
    simp [widthOf, hu, hrole]
  · intro base roles i c ls v hrole hu
    simp only [widthOf, hu, hrole]
    split
    · simp_all
    · simp
  · intro base roles i c r c' ls v hrole hrow hu
    simp only [widthOf, hu, hrole, hrow]
    split
    · simp_all
    · simp
  · intro v
    rw [ratMin_eq, qMul_eq, Rat.divInt_eq_div]
    norm_num

/-! ### Claim C10 -/

/-- C10: the fixed-width override.  Any event whose payload carries a (truthy) `width`
object gets it back unchanged from `_width`, whatever its clustering role; and whenever
that width's unit is not `"%"`, the final `width` is that same object, with no `1.7`
growth and no cap at `100`. -/
theorem c10_fixed_width_bypass :
    (∀ base roles i e w, base[i]? = some e → e.dataWidth = some w →
      uWidth base roles i = some w) ∧
    (∀ base roles i e w, base[i]? = some e → e.dataWidth = some w → w.unit ≠ "%" →
      widthOf base roles i = some w) := by
  constructor
  · intro base roles i e w hb hw
    simp [uWidth, uWidthF, hb, hw]
  · intro base roles i e w hb hw hunit
    have hu : uWidth base roles i = some w := by simp [uWidth, uWidthF, hb, hw]
    simp [widthOf, hu, hunit]

/-! ### Claim C9 -/

/-- C9: no division by zero: the container divisor `containerCols` and the row divisor
`leaves.length + 1` are at least `1` by construction; and a lone ungrouped event with
no fixed width (no leaves, no siblings) resolves the degenerate full-width single
column: width `{100, "%"}` (the `1.7` growth capped at `100`), offset `{0, ""}`. -/
theorem c9_divisors_and_degenerate :
    (∀ roles rows, 1 ≤ containerCols roles rows) ∧
    (∀ ls : List Nat, 1 ≤ ls.length + 1) ∧
    (∀ (d : Int) (e : EvIn), e.eventType = none → e.dataWidth = none →
      getStyledEvents d [e] = some [⟨0, e.top, e.height, ⟨100, "%"⟩, ⟨0, ""⟩⟩]) := by
  refine ⟨?_, ?_, ?_⟩
  · intro roles rows
    exact Nat.le_add_left 1 _
  · intro ls
    omega
  · intro d e hty hw
    have hord : sortByRender [(0, e)] = [(0, e)] := by
      simp [sortByRender, sortedByTime, renderLoop, hty, findMovableGo]
    have hrole : ∀ st, clusterAll [e] d [(0, e)] = some st →
        st.roles 0 = Role.container [] := by
      intro st hst
      simp [clusterAll, clusterStep, hty, findContainer, initState] at hst
      rw [← hst]
      simp [setRole]
    have hcl : clusterAll [e] d [(0, e)] =
        some ⟨setRole initState.roles 0 (Role.container []), [(0, e)], []⟩ := by
      simp [clusterAll, clusterStep, hty, findContainer, initState]
    rw [getStyledEvents]
    simp only [List.enum, List.enumFrom, hord, hcl]
    have hw100 : widthOf [e] (setRole initState.roles 0 (Role.container [])) 0 =
        some ⟨100, "%"⟩ := by
      have hu : uWidth [e] (setRole initState.roles 0 (Role.container [])) 0 =
          some ⟨qDiv 100 ((1 : Nat) : ℚ), "%"⟩ := by
        simp [uWidth, uWidthF, hw, setRole, containerCols]
      simp only [widthOf, hu]
      have h1 : qDiv 100 ((1 : Nat) : ℚ) = 100 := by
        rw [qDiv_eq]; norm_num
      rw [h1]
      have h2 : ratMin 100 (qMul 100 (Rat.divInt 17 10)) = 100 := by
        rw [ratMin_eq, qMul_eq, Rat.divInt_eq_div]; norm_num
      simp [setRole, h2]
    have hx0 : xOffsetOf [e] (setRole initState.roles 0 (Role.container [])) 0 =
        some ⟨0, ""⟩ := by
      simp [xOffsetOf, setRole]
    simp [styleAll, hw100, hx0]

/-- A clustered state realising all three roles: event 0 a container with the single
row 1, event 2 the row's only leaf (the state `getStyledEvents` reaches on three
identical ungrouped events). -/
def wRoles : Nat → Role := fun i =>
  if i = 0 then Role.container [1]
  else if i = 1 then Role.row 0 [2]
  else if i = 2 then Role.leaf 0 1
  else Role.unassigned

def wBase : List EvIn := [cexPlain, cexPlain, cexPlain]

theorem c4_witness :
    widthOf wBase wRoles 0 = some ⟨Rat.divInt 170 3, "%"⟩ ∧
    widthOf wBase wRoles 1 = some ⟨Rat.divInt 170 3, "%"⟩ ∧
    widthOf wBase wRoles 2 = some ⟨Rat.divInt 100 3, "%"⟩ ∧
    min 100 (Rat.divInt 100 3 * (17 / 10)) = Rat.divInt 170 3 := by
  refine ⟨?_, ?_, ?_, ?_⟩
  · rw [c4_width_growth_rules.1 wBase wRoles 0 [1] (Rat.divInt 100 3) (by decide) (by decide)]
    decide
  · rw [c4_width_growth_rules.2.1 wBase wRoles 1 0 [2] (Rat.divInt 100 3) (by decide)
      (by decide)]
    decide
  · rw [c4_width_growth_rules.2.2.1 wBase wRoles 2 0 1 0 [2] (Rat.divInt 100 3) (by decide)
      (by decide) (by decide)]
    decide
  · rw [← c4_width_growth_rules.2.2.2 (Rat.divInt 100 3)]
    decide

theorem c10_witness :
    uWidth [cexGrouped] (fun _ => Role.grouped (some 0)) 0 = some ⟨30, "px"⟩ ∧
    widthOf [cexGrouped] (fun _ => Role.grouped (some 0)) 0 = some ⟨30, "px"⟩ := by
  constructor
  · exact c10_fixed_width_bypass.1 [cexGrouped] _ 0 cexGrouped ⟨30, "px"⟩ rfl rfl
  · exact c10_fixed_width_bypass.2 [cexGrouped] _ 0 cexGrouped ⟨30, "px"⟩ rfl rfl (by decide)

theorem c9_witness :
    getStyledEvents 5 [cexPlain] = some [⟨0, 0, 0, ⟨100, "%"⟩, ⟨0, ""⟩⟩] :=
  c9_divisors_and_degenerate.2.2 5 cexPlain rfl rfl

/-! ### `jsIndexOf` facts -/

theorem jsIndexOf_nonneg_of_mem {x : Nat} :
    ∀ {l : List Nat}, x ∈ l → 0 ≤ jsIndexOf x l ∧ jsIndexOf x l < l.length
  | [], h => absurd h (List.not_mem_nil x)
  | y :: ys, h => by
    rw [jsIndexOf]
    by_cases hxy : y = x
    · rw [if_pos hxy]
      simp only [List.length_cons]
      omega
    · rw [if_neg hxy]
      have hmem : x ∈ ys := by
        rcases List.mem_cons.mp h with rfl | hm
        · exact absurd rfl hxy
        · exact hm
      obtain ⟨h0, hlt⟩ := jsIndexOf_nonneg_of_mem hmem
      rw [if_neg (by omega)]
      simp only [List.length_cons]
      push_cast
      omega

theorem jsIndexOf_inj {x y : Nat} :
    ∀ {l : List Nat}, x ∈ l → y ∈ l → jsIndexOf x l = jsIndexOf y l → x = y
  | [], hx, _, _ => absurd hx (List.not_mem_nil x)
  | z :: zs, hx, hy, heq => by
    rw [jsIndexOf, jsIndexOf] at heq
    by_cases hzx : z = x <;> by_cases hzy : z = y
    · omega
    · rw [if_pos hzx, if_neg hzy] at heq
      have hmy : y ∈ zs := by
        rcases List.mem_cons.mp hy with rfl | hm
        · exact absurd rfl hzy
        · exact hm
      obtain ⟨h0, -⟩ := jsIndexOf_nonneg_of_mem hmy
      rw [if_neg (by omega)] at heq
      omega
    · rw [if_neg hzx, if_pos hzy] at heq
      have hmx : x ∈ zs := by
        rcases List.mem_cons.mp hx with rfl | hm
        · exact absurd rfl hzx
        · exact hm
      obtain ⟨h0, -⟩ := jsIndexOf_nonneg_of_mem hmx
      rw [if_neg (by omega)] at heq
      omega
    · rw [if_neg hzx, if_neg hzy] at heq
      have hmx : x ∈ zs := by
        rcases List.mem_cons.mp hx with rfl | hm
        · exact absurd rfl hzx
        · exact hm
      have hmy : y ∈ zs := by
        rcases List.mem_cons.mp hy with rfl | hm
        · exact absurd rfl hzy
        · exact hm
      obtain ⟨h0x, -⟩ := jsIndexOf_nonneg_of_mem hmx
      obtain ⟨h0y, -⟩ := jsIndexOf_nonneg_of_mem hmy
      rw [if_neg (by omega), if_neg (by omega)] at heq
      exact jsIndexOf_inj hmx hmy (by omega)

/-! ### Claim C6 -/

/-- Resolving `_width` at fuel `1` (a fixed width or a container formula) is
fuel-independent. -/
theorem uWidthF_of_one {base : List EvIn} {roles : Nat → Role} {c : Nat} {cw : Wd}
    (h : uWidthF base roles 1 c = some cw) :
    ∀ f, f ≠ 0 → uWidthF base roles f c = some cw := by
  intro f hf
  match f, hf with
  | f' + 1, _ =>
    match hb : base[c]? with
    | none => simp [uWidthF, hb] at h
    | some e =>
      match hw : e.dataWidth with
      | some w =>
        simp only [uWidthF, hb, hw] at h ⊢
        exact h
      | none =>
        match hr : roles c with
        | Role.container rs =>
          simp only [uWidthF, hb, hw, hr] at h ⊢
          exact h
        | Role.row c' ls => simp [uWidthF, hb, hw, hr] at h
        | Role.leaf c' r => simp [uWidthF, hb, hw, hr] at h
        | Role.unassigned => simp [uWidthF, hb, hw, hr] at h
        | Role.grouped col => simp [uWidthF, hb, hw, hr] at h

/-- A non-fixed-width leaf's `_width` defers to its row's. -/
theorem uWidthF_leaf {base : List EvIn} {roles : Nat → Role} {l ci ri : Nat} {el : EvIn}
    (hbl : base[l]? = some el) (hwl : el.dataWidth = none)
    (hrl : roles l = Role.leaf ci ri) :
    ∀ f, uWidthF base roles (f + 1) l = uWidthF base roles f ri := by
  intro f
  simp only [uWidthF, hbl, hwl, hrl]

/-- The `_width` of a non-fixed-width row, at any fuel allowing one recursion step. -/
theorem uWidthF_row {base : List EvIn} {roles : Nat → Role} {i cid : Nat} {ls : List Nat}
    {ei : EvIn} {cw : Wd}
    (hb : base[i]? = some ei) (hw : ei.dataWidth = none)
    (hrole : roles i = Role.row cid ls)
    (hcw : uWidthF base roles 1 cid = some cw) :
    ∀ f, 2 ≤ f → uWidthF base roles f i =
      some ⟨qDiv (qSub 100 cw.value) ((ls.length + 1 : Nat) : ℚ), "%"⟩ := by
  intro f hf
  match f, hf with
  | f' + 1, _ =>
    have hf' : f' ≠ 0 := by omega
    simp only [uWidthF, hb, hw, hrole, uWidthF_of_one hcw f' hf']

/-- C6 (amended): for a row without an explicit fixed width whose leaves also carry no
fixed widths, the row's effective width plus the sum of its leaves' effective widths
equals — in particular never exceeds — `100` minus its container's effective width.
(With fixed widths in play the bound fails: `c6_counterexample`.) -/
theorem c6_row_width_sum (base : List EvIn) (roles : Nat → Role) (i cid : Nat)
    (ls : List Nat) (ei : EvIn) (cw : Wd)
    (hb : base[i]? = some ei) (hw : ei.dataWidth = none)
    (hrole : roles i = Role.row cid ls)
    (hcw : uWidthF base roles 1 cid = some cw)
    (hleaves : ∀ l ∈ ls, ∃ el, base[l]? = some el ∧ el.dataWidth = none ∧
      ∃ cl, roles l = Role.leaf cl i) :
    ((uWidth base roles i).getD ⟨0, ""⟩).value +
        (ls.map (fun l => ((uWidth base roles l).getD ⟨0, ""⟩).value)).sum =
      100 - cw.value ∧
    ((uWidth base roles i).getD ⟨0, ""⟩).value +
        (ls.map (fun l => ((uWidth base roles l).getD ⟨0, ""⟩).value)).sum ≤
      100 - cw.value := by
  have hn1 : ((ls.length + 1 : Nat) : ℚ) ≠ 0 := by
    push_cast
    positivity
  have hrw : uWidth base roles i =
      some ⟨qDiv (qSub 100 cw.value) ((ls.length + 1 : Nat) : ℚ), "%"⟩ := by
    rw [uWidth]
    exact uWidthF_row hb hw hrole hcw 3 (by omega)
  have hleafw : ∀ l ∈ ls, uWidth base roles l =
      some ⟨qDiv (qSub 100 cw.value) ((ls.length + 1 : Nat) : ℚ), "%"⟩ := by
    intro l hl
    obtain ⟨el, hbl, hwl, cl, hrl⟩ := hleaves l hl
    rw [uWidth]
    have h2 : uWidthF base roles 2 i =
        some ⟨qDiv (qSub 100 cw.value) ((ls.length + 1 : Nat) : ℚ), "%"⟩ :=
      uWidthF_row hb hw hrole hcw 2 (by omega)
    simp only [uWidthF, hbl, hwl, hrl]
    exact h2
  set rwv : ℚ := qDiv (qSub 100 cw.value) ((ls.length + 1 : Nat) : ℚ) with hrwv
  have hmap : ls.map (fun l => ((uWidth base roles l).getD ⟨0, ""⟩).value) =
      ls.map (fun _ => rwv) := by
    apply List.map_congr_left
    intro l hl
    rw [hleafw l hl]
    rfl
  have hsum : (ls.map (fun _ => rwv)).sum = (ls.length : ℚ) * rwv := by
    rw [List.map_const']
    rw [List.sum_replicate]
    rw [nsmul_eq_mul]
  have hval : rwv = (100 - cw.value) / ((ls.length + 1 : Nat) : ℚ) := by
    rw [hrwv, qDiv_eq, qSub_eq]
  have key : rwv + (ls.length : ℚ) * rwv = 100 - cw.value := by
    rw [hval]
    field_simp
    ring
  constructor
  · rw [hrw, hmap, hsum]
    simpa using key
  · rw [hrw, hmap, hsum]
    simpa using le_of_eq key

/-- A second event with an explicit `{200, "%"}` fixed width. -/
def c6Wide : EvIn := ⟨0, 10, 0, 10, 0, 0, some ⟨200, "%"⟩, none⟩

def c6Base : List EvIn := [cexPlain, c6Wide]

/-- C6 counterexample: clustering `[cexPlain, c6Wide]` makes event 1 a childless row of
container 0 with effective width `200` (its fixed width), while `100` minus the
container's effective width is `50`; the claimed bound `200 ≤ 50` is false. -/
theorem c6_counterexample :
    (clusterAll c6Base 1 (sortByRender c6Base.enum)).map
        (fun st => (st.roles 0, st.roles 1,
          ((uWidth c6Base st.roles 0).getD ⟨0, ""⟩).value,
          ((uWidth c6Base st.roles 1).getD ⟨0, ""⟩).value)) =
      some (Role.container [1], Role.row 0 [], 50, 200) ∧
    ¬((200 : ℚ) ≤ 100 - 50) := by
  constructor
  · decide
  · intro h
    norm_num at h

theorem c6_witness :
    ((uWidth wBase wRoles 1).getD ⟨0, ""⟩).value +
        (([2] : List Nat).map (fun l => ((uWidth wBase wRoles l).getD ⟨0, ""⟩).value)).sum =
      100 - (⟨Rat.divInt 100 3, "%"⟩ : Wd).value ∧
    ((uWidth wBase wRoles 1).getD ⟨0, ""⟩).value +
        (([2] : List Nat).map (fun l => ((uWidth wBase wRoles l).getD ⟨0, ""⟩).value)).sum ≤
      100 - (⟨Rat.divInt 100 3, "%"⟩ : Wd).value := by
  refine c6_row_width_sum wBase wRoles 1 0 [2] cexPlain ⟨Rat.divInt 100 3, "%"⟩ rfl rfl
    (by decide) (by decide) ?_
  intro l hl
  have hl2 : l = 2 := by simpa using hl
  subst hl2
  exact ⟨cexPlain, rfl, rfl, 0, rfl⟩

/-! ### Claim C1 -/

/-- Horizontal spans `[x1, x1+w1)` and `[x2, x2+w2)` do not overlap. -/
def spanDisjoint (x1 w1 x2 w2 : ℚ) : Prop := x1 + w1 ≤ x2 ∨ x2 + w2 ≤ x1

theorem foldl_max_le {g : Nat → Nat} :
    ∀ (l : List Nat) (acc : Nat), acc ≤ l.foldl (fun m r => max m (g r)) acc
  | [], _ => le_refl _
  | y :: ys, acc => by
    simp only [List.foldl_cons]
    exact le_trans (le_max_left acc (g y)) (foldl_max_le ys _)

theorem foldl_max_mem {g : Nat → Nat} {x : Nat} :
    ∀ {l : List Nat} (acc : Nat), x ∈ l → g x ≤ l.foldl (fun m r => max m (g r)) acc
  | [], _, h => absurd h (List.not_mem_nil x)
  | y :: ys, acc, h => by
    simp only [List.foldl_cons]
    rcases List.mem_cons.mp h with rfl | hm
    · exact le_trans (le_max_right acc (g x)) (foldl_max_le ys _)
    · exact foldl_max_mem _ hm

/-- C1 (amended): the no-overlap invariant holds *within a row chain* and with
*pre-growth* (`_width`) widths: for a container, one of its rows, and that row's
leaves (all without explicit fixed widths), the spans `(xOffset, xOffset + _width)`
are pairwise disjoint — container vs row, container vs leaf, row vs leaf, and leaf vs
leaf.  (The claim as stated — over *final* widths and *any* pair in the container —
fails, see `c1_counterexample`: the deliberate `1.7` growth makes final spans
overlap.) -/
theorem c1_rowchain_pregrowth_disjoint
    (base : List EvIn) (roles : Nat → Role) (ci ri : Nat) (rs ls : List Nat)
    (ec er : EvIn)
    (hbc : base[ci]? = some ec) (hwc : ec.dataWidth = none)
    (hrc : roles ci = Role.container rs)
    (hmem : ri ∈ rs)
    (hbr : base[ri]? = some er) (hwr : er.dataWidth = none)
    (hrr : roles ri = Role.row ci ls)
    (hleaves : ∀ l ∈ ls, ∃ el, base[l]? = some el ∧ el.dataWidth = none ∧
      roles l = Role.leaf ci ri)
    (W X : Nat → ℚ)
    (hW : ∀ j, W j = ((uWidth base roles j).getD ⟨0, ""⟩).value)
    (hX : ∀ j, X j = ((xOffsetOf base roles j).getD ⟨0, ""⟩).value) :
    spanDisjoint (X ci) (W ci) (X ri) (W ri) ∧
    (∀ l ∈ ls, spanDisjoint (X ci) (W ci) (X l) (W l) ∧
      spanDisjoint (X ri) (W ri) (X l) (W l)) ∧
    (∀ l1 ∈ ls, ∀ l2 ∈ ls, l1 ≠ l2 →
      spanDisjoint (X l1) (W l1) (X l2) (W l2)) := by
  -- the container's `_width`
  have hcw1 : uWidthF base roles 1 ci =
      some ⟨qDiv 100 ((containerCols roles rs : Nat) : ℚ), "%"⟩ := by
    simp only [uWidthF, hbc, hwc, hrc]
  have hucw : uWidth base roles ci =
      some ⟨qDiv 100 ((containerCols roles rs : Nat) : ℚ), "%"⟩ := by
    rw [uWidth]
    exact uWidthF_of_one hcw1 3 (by omega)
  set colsN : Nat := containerCols roles rs with hcolsN
  have hcols2 : 2 ≤ colsN := by
    rw [hcolsN, containerCols]
    have h1 : leavesCount roles ri + 1 ≤
        rs.foldl (fun m r => max m (leavesCount roles r + 1)) 0 :=
      @foldl_max_mem (fun r => leavesCount roles r + 1) ri rs 0 hmem
    omega
  have hcolsQ : (2 : ℚ) ≤ (colsN : ℚ) := by exact_mod_cast hcols2
  have hcolsPos : (0 : ℚ) < (colsN : ℚ) := by linarith
  set cwv : ℚ := 100 / (colsN : ℚ) with hcwv
  have hqcw : qDiv 100 ((colsN : Nat) : ℚ) = cwv := by rw [qDiv_eq]
  have hcwvPos : 0 < cwv := by rw [hcwv]; positivity
  have hcwv50 : cwv ≤ 50 := by
    rw [hcwv, div_le_iff₀ hcolsPos]
    linarith
  -- the row's `_width`
  have hnQ : (0 : ℚ) < ((ls.length + 1 : Nat) : ℚ) := by positivity
  set rwv : ℚ := (100 - cwv) / ((ls.length + 1 : Nat) : ℚ) with hrwv
  have hrwvPos : 0 < rwv := by
    rw [hrwv]
    apply div_pos _ hnQ
    linarith
  have hrowval : some (⟨qDiv (qSub 100 (⟨qDiv 100 ((containerCols roles rs : Nat) : ℚ),
      "%"⟩ : Wd).value) ((ls.length + 1 : Nat) : ℚ), "%"⟩ : Wd) = some ⟨rwv, "%"⟩ := by
    rw [show (⟨qDiv 100 ((containerCols roles rs : Nat) : ℚ), "%"⟩ : Wd).value =
      qDiv 100 ((colsN : Nat) : ℚ) from rfl]
    rw [qDiv_eq, qSub_eq, hqcw]
  have hurw : uWidth base roles ri = some ⟨rwv, "%"⟩ := by
    rw [uWidth]
    rw [uWidthF_row hbr hwr hrr hcw1 3 (by omega)]
    exact hrowval
  have hulw : ∀ l ∈ ls, uWidth base roles l = some ⟨rwv, "%"⟩ := by
    intro l hl
    obtain ⟨el, hbl, hwl, hrl⟩ := hleaves l hl
    rw [uWidth, show (3 : Nat) = 2 + 1 from rfl, uWidthF_leaf hbl hwl hrl 2]
    rw [uWidthF_row hbr hwr hrr hcw1 2 (by omega)]
    exact hrowval
  -- offsets
  have hXc : X ci = 0 := by
    rw [hX]
    simp [xOffsetOf, hrc]
  have hWc : W ci = cwv := by
    rw [hW, hucw, hqcw]
    rfl
  have hxrow : xOffsetRow base roles ri = some ⟨qDiv 100 ((colsN : Nat) : ℚ), "%"⟩ := by
    simp only [xOffsetRow, hrr, hucw]
    rw [if_neg (by decide)]
  have hXr : X ri = cwv := by
    rw [hX]
    simp only [xOffsetOf, hrr]
    rw [hxrow, hqcw]
    rfl
  have hWr : W ri = rwv := by
    rw [hW, hurw]
    rfl
  have hWl : ∀ l ∈ ls, W l = rwv := by
    intro l hl
    rw [hW, hulw l hl]
    rfl
  have hXl : ∀ l ∈ ls, X l = cwv + ((jsIndexOf l ls + 1 : Int) : ℚ) * rwv := by
    intro l hl
    obtain ⟨el, hbl, hwl, hrl⟩ := hleaves l hl
    rw [hX]
    simp only [xOffsetOf, hrl, hrr, hxrow, hurw, Option.getD_some]
    rw [if_neg (by decide)]
    rw [qAdd_eq, qMul_eq, hqcw]
  -- index bounds
  have hk : ∀ l ∈ ls, (0 : ℚ) ≤ ((jsIndexOf l ls : Int) : ℚ) := by
    intro l hl
    have := (jsIndexOf_nonneg_of_mem hl).1
    exact_mod_cast this
  refine ⟨?_, ?_, ?_⟩
  · left
    rw [hXc, hWc, hXr]
    linarith
  · intro l hl
    have hXlv := hXl l hl
    have hWlv := hWl l hl
    have hkl := hk l hl
    have hprod : 0 ≤ ((jsIndexOf l ls + 1 : Int) : ℚ) * rwv := by
      apply mul_nonneg _ (le_of_lt hrwvPos)
      push_cast
      linarith
    constructor
    · left
      rw [hXc, hWc, hXlv]
      linarith
    · left
      rw [hXr, hWr, hXlv]
      have h1k : (1 : ℚ) ≤ ((jsIndexOf l ls + 1 : Int) : ℚ) := by
        push_cast
        linarith
      nlinarith
  · intro l1 hl1 l2 hl2 hne
    have hk1 := (jsIndexOf_nonneg_of_mem hl1).1
    have hk2 := (jsIndexOf_nonneg_of_mem hl2).1
    have hkne : jsIndexOf l1 ls ≠ jsIndexOf l2 ls := by
      intro hkeq
      exact hne (jsIndexOf_inj hl1 hl2 hkeq)
    rw [hXl l1 hl1, hWl l1 hl1, hXl l2 hl2, hWl l2 hl2]
    rcases lt_or_gt_of_ne hkne with hlt | hlt
    · left
      have hc : ((jsIndexOf l1 ls + 1 : Int) : ℚ) + 1 ≤
          ((jsIndexOf l2 ls + 1 : Int) : ℚ) := by
        have h12 : jsIndexOf l1 ls + 1 + 1 ≤ jsIndexOf l2 ls + 1 := by omega
        exact_mod_cast h12
      nlinarith
    · right
      have hc : ((jsIndexOf l2 ls + 1 : Int) : ℚ) + 1 ≤
          ((jsIndexOf l1 ls + 1 : Int) : ℚ) := by
        have h12 : jsIndexOf l2 ls + 1 + 1 ≤ jsIndexOf l1 ls + 1 := by omega
        exact_mod_cast h12
      nlinarith

theorem c1_witness :
    spanDisjoint (((xOffsetOf wBase wRoles 0).getD ⟨0, ""⟩).value)
        (((uWidth wBase wRoles 0).getD ⟨0, ""⟩).value)
        (((xOffsetOf wBase wRoles 1).getD ⟨0, ""⟩).value)
        (((uWidth wBase wRoles 1).getD ⟨0, ""⟩).value) ∧
    spanDisjoint (((xOffsetOf wBase wRoles 1).getD ⟨0, ""⟩).value)
        (((uWidth wBase wRoles 1).getD ⟨0, ""⟩).value)
        (((xOffsetOf wBase wRoles 2).getD ⟨0, ""⟩).value)
        (((uWidth wBase wRoles 2).getD ⟨0, ""⟩).value) := by
  have hlv : ∀ l ∈ ([2] : List Nat), ∃ el, wBase[l]? = some el ∧ el.dataWidth = none ∧
      wRoles l = Role.leaf 0 1 := by
    intro l hl
    have h2 : l = 2 := by simpa using hl
    subst h2
    exact ⟨cexPlain, rfl, rfl, rfl⟩
  have h := c1_rowchain_pregrowth_disjoint wBase wRoles 0 1 [1] [2] cexPlain cexPlain
    rfl rfl (by decide) (by decide) rfl rfl (by decide) hlv
    (fun j => ((uWidth wBase wRoles j).getD ⟨0, ""⟩).value)
    (fun j => ((xOffsetOf wBase wRoles j).getD ⟨0, ""⟩).value)
    (fun _ => rfl) (fun _ => rfl)
  exact ⟨h.1, (h.2.1 2 (by decide)).2⟩

/-- C1 counterexample: on three identical ungrouped events, clustering makes event 1 a
row and event 2 its leaf inside container 0 (all three share the same placement range,
so every pair overlaps), yet their *final* horizontal spans — row
`[100/3, 100/3 + 170/3)` and leaf `[200/3, 200/3 + 100/3)` — overlap: the `1.7`
growth makes the claimed invariant false. -/
theorem c1_counterexample :
    getStyledEvents 1 wBase =
      some [⟨0, 0, 0, ⟨Rat.divInt 170 3, "%"⟩, ⟨0, ""⟩⟩,
        ⟨1, 0, 0, ⟨Rat.divInt 170 3, "%"⟩, ⟨Rat.divInt 100 3, "%"⟩⟩,
        ⟨2, 0, 0, ⟨Rat.divInt 100 3, "%"⟩, ⟨Rat.divInt 200 3, "%"⟩⟩] ∧
    (clusterAll wBase 1 (sortByRender wBase.enum)).map
        (fun st => (st.roles 0, st.roles 1, st.roles 2)) =
      some (Role.container [1], Role.row 0 [2], Role.leaf 0 1) ∧
    ¬spanDisjoint (Rat.divInt 100 3) (Rat.divInt 170 3) (Rat.divInt 200 3)
      (Rat.divInt 100 3) := by
  refine ⟨by decide, by decide, ?_⟩
  rw [spanDisjoint]
  push_neg
  simp only [Rat.divInt_eq_div]
  norm_num

/-! ### Claim C3 -/

/-- A grouped event with fixed width `{30, "px"}`. -/
def c3Px : EvIn := ⟨0, 10, 0, 10, 0, 0, some ⟨30, "px"⟩, some "k"⟩

/-- A grouped event with fixed width `{30, "%"}`. -/
def c3Pct : EvIn := ⟨0, 10, 0, 10, 0, 0, some ⟨30, "%"⟩, some "k"⟩

/-- C3 (amended): four grouped events sharing one key with fixed width `{30, "px"}`
all keep width exactly `{30, "px"}`; the first three fill slot row 0 at columns
0, 1, 2 — offsets `column × (width + 2)` = 0, 32, 64 — and the fourth goes to a *new*
slot row at the max-gap column (a tie, so column 0), offset 0.  A slot row has only 3
columns, so an offset of 96 (column 3) is impossible; and with unit `"%"` the width
getter crashes outright (`c3_counterexample`). -/
theorem c3_grouped_fixed_width_layout :
    getStyledEvents 1 [c3Px, c3Px, c3Px, c3Px] =
      some [⟨0, 0, 0, ⟨30, "px"⟩, ⟨0, "px"⟩⟩, ⟨1, 0, 0, ⟨30, "px"⟩, ⟨32, "px"⟩⟩,
        ⟨2, 0, 0, ⟨30, "px"⟩, ⟨64, "px"⟩⟩, ⟨3, 0, 0, ⟨30, "px"⟩, ⟨0, "px"⟩⟩] := by
  decide

/-- C3 counterexample: with the claim's own `{30, "%"}` width, `getStyledEvents`
aborts (the `width` getter of a grouped percent-width event destructures
`this.row` = `undefined`), so no event receives width `{30, "%"}`; and the four column
assignments are 0, 1, 2, 0 — there is no column 3, so no offset 96 either. -/
theorem c3_counterexample :
    getStyledEvents 1 [c3Pct, c3Pct, c3Pct, c3Pct] = none ∧
    (clusterAll [c3Pct, c3Pct, c3Pct, c3Pct] 1
        (sortByRender ([c3Pct, c3Pct, c3Pct, c3Pct]).enum)).map
      (fun st => (st.roles 0, st.roles 1, st.roles 2, st.roles 3)) =
      some (Role.grouped (some 0), Role.grouped (some 1), Role.grouped (some 2),
        Role.grouped (some 0)) := by
  constructor
  · decide
  · decide

/-! ### Claim C7 -/

theorem renderCmp_self (a : EvIn) : renderCmp a a = Ordering.eq :=
  (renderCmp_eq_iff a a).mpr ⟨rfl, rfl, rfl⟩

theorem pair_sublist_of_getElem :
    ∀ {α : Type} (l : List α) (i j : Nat) (x y : α), i < j →
      l[i]? = some x → l[j]? = some y → [x, y].Sublist l := by
  intro α l
  induction l with
  | nil => intro i j x y _ hx _; simp at hx
  | cons z zs ih =>
    intro i j x y hij hx hy
    match i, j, hij with
    | 0, j' + 1, _ =>
      simp only [List.getElem?_cons_zero] at hx
      injection hx with hx
      subst hx
      simp only [List.getElem?_cons_succ] at hy
      have hmem : y ∈ zs := by
        rcases List.getElem?_eq_some_iff.mp hy with ⟨hlt, hget⟩
        exact hget ▸ List.getElem_mem hlt
      exact List.cons_sublist_cons.mpr (List.singleton_sublist.mpr hmem)
    | i' + 1, j' + 1, _ =>
      simp only [List.getElem?_cons_succ] at hx hy
      exact (ih i' j' x y (by omega) hx hy).cons z

theorem styleAll_ids (base : List EvIn) (roles : Nat → Role) :
    ∀ (l : List IdEv) (out : List Styled), styleAll base roles l = some out →
      out.map Styled.id = l.map Prod.fst := by
  intro l
  induction l with
  | nil =>
    intro out h
    injection h with h
    subst h
    rfl
  | cons ie rest ih =>
    intro out h
    rw [styleAll] at h
    rcases Option.bind_eq_some.mp h with ⟨w, hw, h2⟩
    rcases Option.bind_eq_some.mp h2 with ⟨xo, hxo, h3⟩
    rcases Option.map_eq_some'.mp h3 with ⟨os, hos, rfl⟩
    simp [ih os hos]

/-- C7 (amended): two input events with identical start and end instants *and the same
grouping key* keep their input order in the output of `getStyledEvents`: their ids
appear in input order as a subsequence of the output's ids.  (With different grouping
keys the order flips — see `c7_counterexample` — because the initial sort's first
criterion is the key.) -/
theorem c7_output_stability (d : Int) (base : List EvIn) (i j : Nat) (a b : EvIn)
    (out : List Styled)
    (hij : i < j) (ha : base[i]? = some a) (hb : base[j]? = some b)
    (hs : a.startMs = b.startMs) (he : a.endMs = b.endMs)
    (ht : a.eventType = b.eventType)
    (hout : getStyledEvents d base = some out) :
    [i, j].Sublist (out.map Styled.id) := by
  set p := sameKeyB a with hp
  have hpx : p (i, a) = true := by
    simp [hp, sameKeyB, renderCmp_self]
  have hpy : p (j, b) = true := by
    simp only [hp, sameKeyB, decide_eq_true_iff]
    exact (renderCmp_eq_iff a b).mpr ⟨ht, hs, he⟩
  have hpair : [(i, a), (j, b)].Sublist base.enum := by
    apply pair_sublist_of_getElem base.enum i j (i, a) (j, b) hij
    · rw [List.getElem?_enum, ha]; rfl
    · rw [List.getElem?_enum, hb]; rfl
  have hfilter1 : [(i, a), (j, b)].Sublist (base.enum.filter p) := by
    have hsf := List.Sublist.filter p hpair
    rwa [show [(i, a), (j, b)].filter p = [(i, a), (j, b)] from by
      simp [List.filter, hpx, hpy]] at hsf
  have h1 : (sortedByTime base.enum).filter p = base.enum.filter p :=
    filter_sortedByTime p (fun x y hx hy => sameKeyB_le hx hy) base.enum
  have hlen : (sortedByTime base.enum).length = base.enum.length :=
    (List.perm_insertionSort renderLE base.enum).length_eq
  have h2 : (renderLoop base.enum.length (sortedByTime base.enum)).filter p =
      (sortedByTime base.enum).filter p :=
    renderLoop_filter p (fun t m ht' hm' => sameKeyB_startMs ht' hm')
      base.enum.length _ (le_of_eq hlen)
  have h3 : (sortByRender base.enum).filter p = base.enum.filter p := by
    rw [sortByRender, h2, h1]
  have hsub3 : [(i, a), (j, b)].Sublist (sortByRender base.enum) :=
    (h3 ▸ hfilter1).trans (List.filter_sublist _)
  have hids : out.map Styled.id = (sortByRender base.enum).map Prod.fst := by
    rw [getStyledEvents] at hout
    match hcl : clusterAll base d (sortByRender base.enum) with
    | none =>
      rw [hcl] at hout
      cases hout
    | some st =>
      rw [hcl] at hout
      exact styleAll_ids base st.roles _ out hout
  have hmapped := List.Sublist.map Prod.fst hsub3
  rw [hids]
  exact hmapped

/-- C7 counterexample: a grouped and an ungrouped event with identical start and end
instants swap their relative order in the output (the ungrouped one is emitted
first, its input position notwithstanding). -/
theorem c7_counterexample :
    (getStyledEvents 1 [cexGrouped, cexPlain]).map (fun out => out.map Styled.id) =
      some [1, 0] ∧
    cexGrouped.startMs = cexPlain.startMs ∧ cexGrouped.endMs = cexPlain.endMs := by
  decide

theorem c7_witness :
    [0, 1].Sublist (([(⟨0, 0, 0, ⟨85, "%"⟩, ⟨0, ""⟩⟩ : Styled),
      ⟨1, 0, 0, ⟨50, "%"⟩, ⟨50, "%"⟩⟩]).map Styled.id) := by
  exact c7_output_stability 1 [cexPlain, cexPlain] 0 1 cexPlain cexPlain
    [⟨0, 0, 0, ⟨85, "%"⟩, ⟨0, ""⟩⟩, ⟨1, 0, 0, ⟨50, "%"⟩, ⟨50, "%"⟩⟩]
    (by omega) rfl rfl rfl rfl rfl (by decide)

/-! ### Claim C5 -/

theorem firstEmpty_none :
    ∀ (row : List (Option IdEv)) (k : Nat), firstEmpty row k = none →
      ∀ s ∈ row, s.isSome = true
  | [], _, _, s, hs => absurd hs (List.not_mem_nil s)
  | none :: _, k, h, _, _ => by cases h
  | some x :: rest, k, h, s, hs => by
    rcases List.mem_cons.mp hs with rfl | hm
    · rfl
    · exact firstEmpty_none rest (k + 1) h s hm

theorem firstEmpty_some :
    ∀ (row : List (Option IdEv)) (k c : Nat), firstEmpty row k = some c →
      k ≤ c ∧ c < k + row.length
  | [], _, _, h => by cases h
  | none :: rest, k, c, h => by
    injection h with h
    subst h
    simp
  | some x :: rest, k, c, h => by
    obtain ⟨h1, h2⟩ := firstEmpty_some rest (k + 1) c h
    simp only [List.length_cons]
    omega

theorem bestSlotGo_full (estart : Int) :
    ∀ (row prev : List (Option IdEv)) (c : Nat) (bc : Option Nat) (bg : Int),
      row.length ≤ prev.length → (∀ s ∈ row, s.isSome = true) →
      bestSlotGo estart row prev c bc bg = some bc
  | [], _, _, _, _, _, _ => rfl
  | none :: _, _ :: _, c, bc, bg, _, hfull => by
    have := hfull none (List.mem_cons_self _ _)
    simp at this
  | some x :: rs, p :: ps, c, bc, bg, hlen, hfull => by
    rw [bestSlotGo]
    exact bestSlotGo_full estart rs ps (c + 1) bc bg
      (by simpa using Nat.le_of_succ_le_succ (by simpa using hlen))
      (fun s hs => hfull s (List.mem_cons_of_mem _ hs))
  | none :: _, [], _, _, _, hlen, _ => by simp at hlen
  | some _ :: _, [], _, _, _, hlen, _ => by simp at hlen

theorem bestSlotGo_succeeds (estart : Int) :
    ∀ (row prev : List (Option IdEv)) (c : Nat) (bc : Option Nat) (bg : Int),
      row.length = prev.length →
      (∀ s ∈ prev, s.isSome = true) →
      (∀ s ∈ prev, ∀ ev : IdEv, s = some ev → -99999 < estart - ev.2.pend) →
      (bc = none → bg = -99999) →
      (∀ c0, bc = some c0 → c0 < c) →
      ((∃ s ∈ row, s = none) ∨ bc.isSome = true) →
      ∃ c', bestSlotGo estart row prev c bc bg = some (some c') ∧ c' < c + row.length
  | [], [], c, none, bg, _, _, _, _, _, hex => by
    rcases hex with ⟨s, hs, -⟩ | h
    · exact absurd hs (List.not_mem_nil s)
    · cases h
  | [], [], c, some c0, bg, _, _, _, _, hbc, _ =>
    ⟨c0, rfl, by simpa using hbc c0 rfl⟩
  | some x :: rs, p :: ps, c, bc, bg, hlen, hprev, hgap, hbg, hbc, hex => by
    rw [bestSlotGo]
    have hex' : (∃ s ∈ rs, s = none) ∨ bc.isSome = true := by
      rcases hex with ⟨s, hs, hn⟩ | hb
      · rcases List.mem_cons.mp hs with rfl | hm
        · cases hn
        · exact Or.inl ⟨s, hm, hn⟩
      · exact Or.inr hb
    obtain ⟨c', hrun, hlt⟩ := bestSlotGo_succeeds estart rs ps (c + 1) bc bg
      (by simpa using hlen)
      (fun s hs => hprev s (List.mem_cons_of_mem _ hs))
      (fun s hs => hgap s (List.mem_cons_of_mem _ hs))
      hbg (fun c0 h => by have := hbc c0 h; omega) hex'
    exact ⟨c', hrun, by simp only [List.length_cons]; omega⟩
  | none :: rs, none :: ps, c, bc, bg, hlen, hprev, hgap, hbg, hbc, hex => by
    have := hprev none (List.mem_cons_self _ _)
    simp at this
  | none :: rs, some pv :: ps, c, bc, bg, hlen, hprev, hgap, hbg, hbc, hex => by
    rw [bestSlotGo]
    have hgap0 : -99999 < estart - pv.2.pend :=
      hgap (some pv) (List.mem_cons_self _ _) pv rfl
    by_cases hcmp : bg < estart - pv.2.pend
    · rw [if_pos hcmp]
      obtain ⟨c', hrun, hlt⟩ := bestSlotGo_succeeds estart rs ps (c + 1) (some c)
        (estart - pv.2.pend)
        (by simpa using hlen)
        (fun s hs => hprev s (List.mem_cons_of_mem _ hs))
        (fun s hs => hgap s (List.mem_cons_of_mem _ hs))
        (by intro h; cases h)
        (fun c0 h => by injection h with h; omega)
        (Or.inr rfl)
      exact ⟨c', hrun, by simp only [List.length_cons]; omega⟩
    · rw [if_neg hcmp]
      match bc, hbg, hbc with
      | none, hbg, _ =>
        exact absurd (hbg rfl ▸ hgap0) hcmp
      | some c0, _, hbc =>
        obtain ⟨c', hrun, hlt⟩ := bestSlotGo_succeeds estart rs ps (c + 1) (some c0) bg
          (by simpa using hlen)
          (fun s hs => hprev s (List.mem_cons_of_mem _ hs))
          (fun s hs => hgap s (List.mem_cons_of_mem _ hs))
          (by intro h; cases h)
          (fun c1 h => by injection h with h; have := hbc c0 rfl; omega)
          (Or.inr rfl)
        exact ⟨c', hrun, by simp only [List.length_cons]; omega⟩
  | none :: _, [], _, _, _, hlen, _, _, _, _, _ => by simp at hlen
  | some _ :: _, [], _, _, _, hlen, _, _, _, _, _ => by simp at hlen

theorem mem_of_getElem' {α : Type} {l : List α} {i : Nat} {a : α}
    (h : l[i]? = some a) : a ∈ l := by
  rcases List.getElem?_eq_some_iff.mp h with ⟨hlt, hget⟩
  exact hget ▸ List.getElem_mem hlt

theorem exists_getElem? {α : Type} (l : List α) (i : Nat) (h : i < l.length) :
    ∃ a, l[i]? = some a := by
  cases hp : l[i]? with
  | none =>
    rw [List.getElem?_eq_none_iff] at hp
    omega
  | some v => exact ⟨v, rfl⟩

/-- Well-formedness of a named group matrix: nonempty, rows of exactly 3 slots, and
all occupants' placement ends bounded by `B` in absolute value. -/
def matOk (B : Nat) (m : List Row3) : Prop :=
  1 ≤ m.length ∧ (∀ row ∈ m, row.length = 3) ∧
  (∀ row ∈ m, ∀ s ∈ row, ∀ ev : IdEv, s = some ev → ev.2.pend.natAbs ≤ B)

theorem matOk_place {B : Nat} {m : List Row3} {r c : Nat} {rowr : Row3} {ev : IdEv}
    (hm : matOk B m) (hr : m[r]? = some rowr) (hevE : ev.2.pend.natAbs ≤ B) :
    matOk B (m.set r (rowr.set c (some ev))) := by
  obtain ⟨h1, h2, h3⟩ := hm
  have hrmem : rowr ∈ m := mem_of_getElem' hr
  refine ⟨by simpa using h1, ?_, ?_⟩
  · intro row hrow
    rcases List.mem_or_eq_of_mem_set hrow with hrow | rfl
    · exact h2 row hrow
    · rw [List.length_set]
      exact h2 rowr hrmem
  · intro row hrow s hs evx hsx
    rcases List.mem_or_eq_of_mem_set hrow with hrow | rfl
    · exact h3 row hrow s hs evx hsx
    · rcases List.mem_or_eq_of_mem_set hs with hs | rfl
      · exact h3 rowr hrmem s hs evx hsx
      · injection hsx with hsx
        subst hsx
        exact hevE

theorem placeGroupedGo_succeeds (B : Nat) (hB : 2 * B < 99999) (ev : IdEv)
    (hevS : ev.2.pstart.natAbs ≤ B) (hevE : ev.2.pend.natAbs ≤ B) :
    ∀ (fuel r : Nat) (m : List Row3),
      matOk B m → r ≤ m.length →
      (∀ i ri, i < r → m[i]? = some ri → ∀ s ∈ ri, s.isSome = true) →
      m.length + 2 ≤ fuel + r →
      ∃ m' c, placeGroupedGo ev fuel r m = some (m', c) ∧ c < 3 ∧ matOk B m' := by
  intro fuel
  induction fuel with
  | zero =>
    intro r m hm hr _ hfuel
    omega
  | succ f ih =>
    intro r m hm hr hpre hfuel
    have hgap : ∀ (prevr : Row3), prevr ∈ m →
        ∀ s ∈ prevr, ∀ pv : IdEv, s = some pv → -99999 < ev.2.pstart - pv.2.pend := by
      intro prevr hpm s hs pv hspv
      have hb := hm.2.2 prevr hpm s hs pv hspv
      omega
    by_cases hrl : r = m.length
    · -- append a fresh empty slot row and place in it
      subst hrl
      have h1le := hm.1
      have hget : (m ++ [[none, none, none]])[m.length]? = some [none, none, none] :=
        List.getElem?_concat_length m _
      have hprevr : ∃ prevr, m[m.length - 1]? = some prevr :=
        exists_getElem? m (m.length - 1) (by omega)
      obtain ⟨prevr, hprevr⟩ := hprevr
      have hprev : (m ++ [[none, none, none]])[m.length - 1]? = some prevr := by
        rw [List.getElem?_append, if_pos (by omega)]
        exact hprevr
      have hprevfull : ∀ s ∈ prevr, s.isSome = true :=
        hpre (m.length - 1) prevr (by omega) hprevr
      have hprevlen : prevr.length = 3 := hm.2.1 prevr (mem_of_getElem' hprevr)
      obtain ⟨c, hrun, hc⟩ := bestSlotGo_succeeds ev.2.pstart [none, none, none] prevr 0
        none (-99999) (by simp [hprevlen]) hprevfull
        (fun s hs pv hspv => hgap prevr (mem_of_getElem' hprevr) s hs pv hspv)
        (fun _ => rfl) (fun c0 h => by cases h)
        (Or.inl ⟨none, by simp, rfl⟩)
      simp only [placeGroupedGo, eq_self_iff_true, if_true, hget,
        eq_false (show ¬m.length = 0 from by omega), if_false, hprev, hrun]
      refine ⟨_, c, rfl, by simpa using hc, ?_⟩
      apply matOk_place _ hget hevE
      refine ⟨by simp, ?_, ?_⟩
      · intro row hrow
        rcases List.mem_append.mp hrow with hrow | hrow
        · exact hm.2.1 row hrow
        · simp only [List.mem_singleton] at hrow
          subst hrow
          rfl
      · intro row hrow s hs evx hsx
        rcases List.mem_append.mp hrow with hrow | hrow
        · exact hm.2.2 row hrow s hs evx hsx
        · simp only [List.mem_singleton] at hrow
          subst hrow
          subst hsx
          simp only [List.mem_cons, List.not_mem_nil, or_false] at hs
          rcases hs with hs | hs | hs <;> cases hs
    · -- r points inside the existing rows
      have hrlt : r < m.length := by omega
      have hrowr : ∃ rowr, m[r]? = some rowr := exists_getElem? m r hrlt
      obtain ⟨rowr, hrowr⟩ := hrowr
      have hrowlen : rowr.length = 3 := hm.2.1 rowr (mem_of_getElem' hrowr)
      by_cases hr0 : r = 0
      · subst hr0
        match hfe : firstEmpty rowr 0 with
        | some c =>
          obtain ⟨-, hclt⟩ := firstEmpty_some rowr 0 c hfe
          simp only [placeGroupedGo, eq_false hrl, if_false, hrowr,
            eq_self_iff_true, if_true, hfe]
          exact ⟨_, c, rfl, by omega, matOk_place hm hrowr hevE⟩
        | none =>
          have hfull := firstEmpty_none rowr 0 hfe
          simp only [placeGroupedGo, eq_false hrl, if_false, hrowr,
            eq_self_iff_true, if_true, hfe]
          apply ih 1 m hm (by omega)
          · intro i ri hi hri
            have hi0 : i = 0 := by omega
            subst hi0
            rw [hrowr] at hri
            injection hri with hri
            subst hri
            exact hfull
          · omega
      · have hprevr : ∃ prevr, m[r - 1]? = some prevr :=
          exists_getElem? m (r - 1) (by omega)
        obtain ⟨prevr, hprevr⟩ := hprevr
        have hprevfull : ∀ s ∈ prevr, s.isSome = true :=
          hpre (r - 1) prevr (by omega) hprevr
        have hprevlen : prevr.length = 3 := hm.2.1 prevr (mem_of_getElem' hprevr)
        by_cases hfull : ∀ s ∈ rowr, s.isSome = true
        · have hbs := bestSlotGo_full ev.2.pstart rowr prevr 0 none (-99999)
            (by omega) hfull
          simp only [placeGroupedGo, eq_false hrl, if_false, hrowr,
            eq_false hr0, hprevr, hbs]
          apply ih (r + 1) m hm (by omega)
          · intro i ri hi hri
            by_cases hir : i = r
            · subst hir
              rw [hrowr] at hri
              injection hri with hri
              subst hri
              exact hfull
            · exact hpre i ri (by omega) hri
          · omega
        · push_neg at hfull
          obtain ⟨s0, hs0, hs0n⟩ := hfull
          have hs0none : s0 = none := by
            cases s0
            · rfl
            · simp at hs0n
          subst hs0none
          obtain ⟨c, hrun, hc⟩ := bestSlotGo_succeeds ev.2.pstart rowr prevr 0
            none (-99999) (by omega) hprevfull
            (fun s hs pv hspv => hgap prevr (mem_of_getElem' hprevr) s hs pv hspv)
            (fun _ => rfl) (fun c0 h => by cases h)
            (Or.inl ⟨none, hs0, rfl⟩)
          simp only [placeGroupedGo, eq_false hrl, if_false, hrowr,
            eq_false hr0, hprevr, hrun]
          exact ⟨_, c, rfl, by omega, matOk_place hm hrowr hevE⟩

theorem placeGrouped_top (B : Nat) (hB : 2 * B < 99999) (ev : IdEv)
    (hevS : ev.2.pstart.natAbs ≤ B) (hevE : ev.2.pend.natAbs ≤ B)
    (m : List Row3) (hm : matOk B m) :
    ∃ m' c, placeGroupedGo ev (m.length + 3) 0 m = some (m', c) ∧ c < 3 ∧ matOk B m' :=
  placeGroupedGo_succeeds B hB ev hevS hevE (m.length + 3) 0 m hm (by omega)
    (fun i _ hi _ => absurd hi (Nat.not_lt_zero i)) (by omega)

theorem lookupMatrix_mem {ms : List (String × List Row3)} {k : String} {m : List Row3}
    (h : lookupMatrix ms k = some m) : ∃ p ∈ ms, p.2 = m := by
  unfold lookupMatrix at h
  rcases Option.map_eq_some'.mp h with ⟨p, hp, hpm⟩
  exact ⟨p, List.mem_of_find?_eq_some hp, hpm⟩

theorem setMatrix_mem {ms : List (String × List Row3)} {k : String} {m' : List Row3}
    {km : String × List Row3} (h : km ∈ setMatrix ms k m') : km ∈ ms ∨ km.2 = m' := by
  unfold setMatrix at h
  rcases List.mem_map.mp h with ⟨p, hp, hpe⟩
  by_cases hk : p.1 = k
  · right
    rw [← hpe, if_pos hk]
  · left
    rw [← hpe, if_neg hk]
    exact hp

theorem findContainer_mem {d : Int} {cs : List IdEv} {e : EvIn} {c : IdEv}
    (h : findContainer d cs e = some c) : c ∈ cs :=
  List.mem_of_find?_eq_some h

theorem setRole_self (roles : Nat → Role) (i : Nat) (r : Role) : setRole roles i r i = r := by
  simp [setRole]

theorem setRole_ne {i j : Nat} (roles : Nat → Role) (r : Role) (h : j ≠ i) :
    setRole roles i r j = roles j := by
  simp [setRole, h]

theorem pushRow_ne {roles : Nat → Role} {cid e j : Nat} (h : j ≠ cid) :
    pushRow roles cid e j = roles j := by
  cases hrd : roles cid with
  | container rs => simp only [pushRow, hrd, setRole, if_neg h]
  | unassigned => simp only [pushRow, hrd]
  | row a b => simp only [pushRow, hrd]
  | leaf a b => simp only [pushRow, hrd]
  | grouped a => simp only [pushRow, hrd]

theorem pushRow_self {roles : Nat → Role} {cid e : Nat} {rs : List Nat}
    (hrd : roles cid = Role.container rs) :
    pushRow roles cid e cid = Role.container (rs ++ [e]) := by
  simp only [pushRow, hrd, setRole, eq_self_iff_true, if_true]

theorem pushRow_stable {roles : Nat → Role} {cid e j : Nat}
    (h : ∀ rs, roles j ≠ Role.container rs) : pushRow roles cid e j = roles j := by
  by_cases hj : j = cid
  · subst hj
    cases hrd : roles j with
    | container rs => exact absurd hrd (h rs)
    | unassigned => simp only [pushRow, hrd]
    | row a b => simp only [pushRow, hrd]
    | leaf a b => simp only [pushRow, hrd]
    | grouped a => simp only [pushRow, hrd]
  · exact pushRow_ne hj

theorem pushLeaf_stable {roles : Nat → Role} {rid e j : Nat}
    (h : ∀ c ls, roles j ≠ Role.row c ls) : pushLeaf roles rid e j = roles j := by
  by_cases hj : j = rid
  · subst hj
    cases hrd : roles j with
    | row c ls => exact absurd hrd (h c ls)
    | unassigned => simp only [pushLeaf, hrd]
    | container a => simp only [pushLeaf, hrd]
    | leaf a b => simp only [pushLeaf, hrd]
    | grouped a => simp only [pushLeaf, hrd]
  · cases hrd : roles rid with
    | row c ls => simp only [pushLeaf, hrd, setRole, if_neg hj]
    | unassigned => simp only [pushLeaf, hrd]
    | container a => simp only [pushLeaf, hrd]
    | leaf a b => simp only [pushLeaf, hrd]
    | grouped a => simp only [pushLeaf, hrd]

/-- The clustering fold preserves matrix well-formedness, never clobbers an assigned
grouped role, and gives every remaining grouped event a column below 3, provided all
remaining events are still unassigned, ids are distinct, every open container carries
a container role, and all placement coordinates are bounded by `B` with `2B < 99999`
(which keeps every slot gap above the `-99999` sentinel). -/
theorem clusterAll_go (B : Nat) (hB : 2 * B < 99999) (base : List EvIn) (d : Int) :
    ∀ (l : List IdEv) (st : CState),
      (∀ km ∈ st.matrices, matOk B km.2) →
      (∀ c ∈ st.containers, ∃ rs, st.roles c.1 = Role.container rs) →
      (∀ ie ∈ l, ie.2.pstart.natAbs ≤ B ∧ ie.2.pend.natAbs ≤ B) →
      (∀ ie ∈ l, st.roles ie.1 = Role.unassigned) →
      (l.map Prod.fst).Nodup →
      ∃ st', List.foldlM (clusterStep base d) st l = some st' ∧
        (∀ km ∈ st'.matrices, matOk B km.2) ∧
        (∀ i c, st.roles i = Role.grouped c → st'.roles i = Role.grouped c) ∧
        (∀ ie ∈ l, ie.2.eventType.isSome = true →
          ∃ c, st'.roles ie.1 = Role.grouped (some c) ∧ c < 3) := by
  intro l
  induction l with
  | nil =>
    intro st hmat hcont hbound hun hnd
    exact ⟨st, rfl, hmat, fun i c h => h, by simp⟩
  | cons ie l ih =>
    intro st hmat hcont hbound hun hnd
    have hunh : st.roles ie.1 = Role.unassigned := hun ie (List.mem_cons_self ie l)
    have hbh := hbound ie (List.mem_cons_self ie l)
    have hninl : ie.1 ∉ l.map Prod.fst := (List.nodup_cons.mp hnd).1
    have hndt : (l.map Prod.fst).Nodup := (List.nodup_cons.mp hnd).2
    have htne : ∀ ie' ∈ l, ie'.1 ≠ ie.1 := by
      intro ie' hie' he
      exact hninl (he ▸ List.mem_map_of_mem Prod.fst hie')
    -- `next st₁ hstep ...` finishes from a description of the state after this step
    have key : ∀ st₁ : CState, clusterStep base d st ie = some st₁ →
        (∀ km ∈ st₁.matrices, matOk B km.2) →
        (∀ c ∈ st₁.containers, ∃ rs, st₁.roles c.1 = Role.container rs) →
        (∀ i c, st.roles i = Role.grouped c → st₁.roles i = Role.grouped c) →
        (∀ ie' ∈ l, st₁.roles ie'.1 = st.roles ie'.1) →
        (ie.2.eventType.isSome = true →
          ∃ c, st₁.roles ie.1 = Role.grouped (some c) ∧ c < 3) →
        ∃ st', List.foldlM (clusterStep base d) st (ie :: l) = some st' ∧
          (∀ km ∈ st'.matrices, matOk B km.2) ∧
          (∀ i c, st.roles i = Role.grouped c → st'.roles i = Role.grouped c) ∧
          (∀ ie' ∈ ie :: l, ie'.2.eventType.isSome = true →
            ∃ c, st'.roles ie'.1 = Role.grouped (some c) ∧ c < 3) := by
      intro st₁ hstep hmat₁ hcont₁ hpres₁ hkeep₁ hhead₁
      obtain ⟨st', hfold, hmat', hpres', hgrp'⟩ := ih st₁ hmat₁ hcont₁
        (fun ie' hie' => hbound ie' (List.mem_cons_of_mem ie hie'))
        (fun ie' hie' => (hkeep₁ ie' hie').trans (hun ie' (List.mem_cons_of_mem ie hie')))
        hndt
      refine ⟨st', ?_, hmat', fun i c h => hpres' i c (hpres₁ i c h), ?_⟩
      · rw [List.foldlM_cons, hstep]
        exact hfold
      · intro ie' hie' hty
        rcases List.mem_cons.mp hie' with rfl | hie'
        · obtain ⟨c, hc, hc3⟩ := hhead₁ hty
          exact ⟨c, hpres' ie'.1 (some c) hc, hc3⟩
        · exact hgrp' ie' hie' hty
    match het : ie.2.eventType with
    | some k =>
      match hlk : lookupMatrix st.matrices k with
      | none =>
        apply key ⟨setRole st.roles ie.1 (Role.grouped (some 0)), st.containers,
          st.matrices ++ [(k, [[some ie, none, none]])]⟩
        · simp only [clusterStep, het, hlk]
        · intro km hkm
          rcases List.mem_append.mp hkm with hkm | hkm
          · exact hmat km hkm
          · simp only [List.mem_singleton] at hkm
            subst hkm
            refine ⟨by simp, by simp, ?_⟩
            intro row hrow s hs ev hsx
            simp only [List.mem_singleton] at hrow
            subst hrow
            simp only [List.mem_cons, List.not_mem_nil, or_false] at hs
            rcases hs with hs | hs | hs <;> subst hs
            · injection hsx with hsx
              subst hsx
              exact hbh.2
            · cases hsx
            · cases hsx
        · intro c hc
          obtain ⟨rs, hcr⟩ := hcont c hc
          have hne : c.1 ≠ ie.1 := fun he => by
            rw [he, hunh] at hcr
            exact Role.noConfusion hcr
          exact ⟨rs, (setRole_ne _ _ hne).trans hcr⟩
        · intro i c hg
          have hne : i ≠ ie.1 := fun he => by
            rw [he, hunh] at hg
            exact Role.noConfusion hg
          exact (setRole_ne _ _ hne).trans hg
        · intro ie' hie'
          exact setRole_ne _ _ (htne ie' hie')
        · intro _
          exact ⟨0, setRole_self _ _ _, by omega⟩
      | some m =>
        obtain ⟨p, hpmem, hpm⟩ := lookupMatrix_mem hlk
        have hmOk : matOk B m := hpm ▸ hmat p hpmem
        obtain ⟨m', c, hpg, hc3, hm'Ok⟩ := placeGrouped_top B hB ie hbh.1 hbh.2 m hmOk
        apply key ⟨setRole st.roles ie.1 (Role.grouped (some c)), st.containers,
          setMatrix st.matrices k m'⟩
        · simp only [clusterStep, het, hlk, hpg]
        · intro km hkm
          rcases setMatrix_mem hkm with hkm | hkm
          · exact hmat km hkm
          · rw [hkm]
            exact hm'Ok
        · intro c' hc'
          obtain ⟨rs, hcr⟩ := hcont c' hc'
          have hne : c'.1 ≠ ie.1 := fun he => by
            rw [he, hunh] at hcr
            exact Role.noConfusion hcr
          exact ⟨rs, (setRole_ne _ _ hne).trans hcr⟩
        · intro i cc hg
          have hne : i ≠ ie.1 := fun he => by
            rw [he, hunh] at hg
            exact Role.noConfusion hg
          exact (setRole_ne _ _ hne).trans hg
        · intro ie' hie'
          exact setRole_ne _ _ (htne ie' hie')
        · intro _
          exact ⟨c, setRole_self _ _ _, hc3⟩
    | none =>
      match hfc : findContainer d st.containers ie.2 with
      | none =>
        apply key ⟨setRole st.roles ie.1 (Role.container []), st.containers ++ [ie],
          st.matrices⟩
        · simp only [clusterStep, het, hfc]
        · exact hmat
        · intro c hc
          rcases List.mem_append.mp hc with hc | hc
          · obtain ⟨rs, hcr⟩ := hcont c hc
            have hne : c.1 ≠ ie.1 := fun he => by
              rw [he, hunh] at hcr
              exact Role.noConfusion hcr
            exact ⟨rs, (setRole_ne _ _ hne).trans hcr⟩
          · simp only [List.mem_singleton] at hc
            subst hc
            exact ⟨[], setRole_self _ _ _⟩
        · intro i cc hg
          have hne : i ≠ ie.1 := fun he => by
            rw [he, hunh] at hg
            exact Role.noConfusion hg
          exact (setRole_ne _ _ hne).trans hg
        · intro ie' hie'
          exact setRole_ne _ _ (htne ie' hie')
        · intro hty
          rw [het] at hty
          cases hty
      | some c =>
        obtain ⟨rs, hcr⟩ := hcont c (findContainer_mem hfc)
        have hcne : c.1 ≠ ie.1 := fun he => by
          rw [he, hunh] at hcr
          exact Role.noConfusion hcr
        match hfr : findRow base d rs ie.2 with
        | some rid =>
          apply key ⟨setRole (pushLeaf st.roles rid ie.1) ie.1 (Role.leaf c.1 rid),
            st.containers, st.matrices⟩
          · simp only [clusterStep, het, hfc, hcr, hfr]
          · exact hmat
          · intro c' hc'
            obtain ⟨rs', hcr'⟩ := hcont c' hc'
            have hne : c'.1 ≠ ie.1 := fun he => by
              rw [he, hunh] at hcr'
              exact Role.noConfusion hcr'
            refine ⟨rs', (setRole_ne _ _ hne).trans ?_⟩
            exact (pushLeaf_stable (fun cc ls h => by
              rw [h] at hcr'
              exact Role.noConfusion hcr')).trans hcr'
          · intro i cc hg
            have hne : i ≠ ie.1 := fun he => by
              rw [he, hunh] at hg
              exact Role.noConfusion hg
            refine (setRole_ne _ _ hne).trans ?_
            exact (pushLeaf_stable (fun c2 ls h => by
              rw [h] at hg
              exact Role.noConfusion hg)).trans hg
          · intro ie' hie'
            refine (setRole_ne _ _ (htne ie' hie')).trans ?_
            have hu' := hun ie' (List.mem_cons_of_mem ie hie')
            exact pushLeaf_stable (fun c2 ls h => by
              rw [h] at hu'
              exact Role.noConfusion hu')
          · intro hty
            rw [het] at hty
            cases hty
        | none =>
          apply key ⟨setRole (pushRow st.roles c.1 ie.1) ie.1 (Role.row c.1 []),
            st.containers, st.matrices⟩
          · simp only [clusterStep, het, hfc, hcr, hfr]
          · exact hmat
          · intro c' hc'
            obtain ⟨rs', hcr'⟩ := hcont c' hc'
            have hne : c'.1 ≠ ie.1 := fun he => by
              rw [he, hunh] at hcr'
              exact Role.noConfusion hcr'
            refine ⟨?_, (setRole_ne _ _ hne).trans ?_⟩
            · exact if c'.1 = c.1 then rs ++ [ie.1] else rs'
            · by_cases hcc : c'.1 = c.1
              · rw [if_pos hcc, hcc]
                exact pushRow_self hcr
              · rw [if_neg hcc]
                exact (pushRow_ne hcc).trans hcr'
          · intro i cc hg
            have hne : i ≠ ie.1 := fun he => by
              rw [he, hunh] at hg
              exact Role.noConfusion hg
            refine (setRole_ne _ _ hne).trans ?_
            exact (pushRow_stable (fun rs2 h => by
              rw [h] at hg
              exact Role.noConfusion hg)).trans hg
          · intro ie' hie'
            refine (setRole_ne _ _ (htne ie' hie')).trans ?_
            have hu' := hun ie' (List.mem_cons_of_mem ie hie')
            exact pushRow_stable (fun rs2 h => by
              rw [h] at hu'
              exact Role.noConfusion hu')
          · intro hty
            rw [het] at hty
            cases hty

/-- C5: every slot row of a named group matrix keeps exactly 3 slots (so at most 3
events), the clustering pass completes, and every grouped event ends with a column
assignment strictly below 3 — provided all placement coordinates are bounded
(`2B < 99999`), which keeps every gap above the `-99999` sentinel, and ids are the
distinct input positions. -/
theorem c5_matrix_bound (B : Nat) (base : List EvIn) (d : Int) (l : List IdEv)
    (hB : 2 * B < 99999) (hnd : (l.map Prod.fst).Nodup)
    (hbound : ∀ ie ∈ l, ie.2.pstart.natAbs ≤ B ∧ ie.2.pend.natAbs ≤ B) :
    ∃ st, clusterAll base d l = some st ∧
      (∀ km ∈ st.matrices, 1 ≤ km.2.length ∧ ∀ row ∈ km.2, row.length = 3) ∧
      (∀ ie ∈ l, ie.2.eventType.isSome = true →
        ∃ c, st.roles ie.1 = Role.grouped (some c) ∧ c < 3) := by
  obtain ⟨st, hfold, hmat, -, hgrp⟩ := clusterAll_go B hB base d l initState
    (by intro km hkm; cases hkm)
    (by intro c hc; cases hc)
    hbound
    (fun ie _ => rfl)
    hnd
  exact ⟨st, hfold, fun km hkm => ⟨(hmat km hkm).1, (hmat km hkm).2.1⟩, hgrp⟩

/-- Witness for C5: four identical grouped events, bound `B = 100`. -/
theorem c5_witness :
    ∃ st, clusterAll [c3Px, c3Px, c3Px, c3Px] 1
        [(0, c3Px), (1, c3Px), (2, c3Px), (3, c3Px)] = some st ∧
      (∀ km ∈ st.matrices, 1 ≤ km.2.length ∧ ∀ row ∈ km.2, row.length = 3) ∧
      (∀ ie ∈ [((0:Nat), c3Px), (1, c3Px), (2, c3Px), (3, c3Px)],
        ie.2.eventType.isSome = true →
        ∃ c, st.roles ie.1 = Role.grouped (some c) ∧ c < 3) :=
  c5_matrix_bound 100 [c3Px, c3Px, c3Px, c3Px] 1
    [(0, c3Px), (1, c3Px), (2, c3Px), (3, c3Px)]
    (by decide) (by decide) (by decide)

/-- A grouped event whose placement range is wide enough (`end = 100000`) to push the
slot gap at or below the `-99999` sentinel. -/
def c5E1 : EvIn := ⟨0, 100000, 0, 100000, 0, 0, none, some "k"⟩

/-- A short grouped event arriving after three copies of `c5E1` fill slot row 0. -/
def c5E4 : EvIn := ⟨0, 10, 0, 10, 0, 0, none, some "k"⟩

def c5Big : List EvIn := [c5E1, c5E1, c5E1, c5E4]

/-- Counterexample to C5 as stated: with slot row 0 full of events ending at 100000,
the fourth grouped event's gaps are all `-100000 ≤ -99999`, so `bestGap` never
improves, no column is assigned in the appended row, and the next iteration reads
`.end` of a `null` slot — a TypeError that aborts `getStyledEvents`.  The grouped
event is dropped (no output at all), refuting "every grouped event receives a column
assignment and none is dropped" unconditionally. -/
theorem c5_counterexample : (getStyledEvents 1 c5Big).isSome = false := by decide

/-! ### C8: appending an event that starts after everything -/

/-- All ids a role refers to (a container's row list, a row's container id, a leaf's
row id) lie below `n`: the shape the clustering pass produces on ids `0..n-1`. -/
def rolesBounded (n : Nat) (roles : Nat → Role) : Prop :=
  (∀ j rs, roles j = Role.container rs → ∀ r ∈ rs, r < n) ∧
  (∀ j cid ls, roles j = Role.row cid ls → cid < n) ∧
  (∀ j c r, roles j = Role.leaf c r → r < n)

theorem leavesCount_congr {roles₁ roles₂ : Nat → Role} {r : Nat}
    (h : roles₁ r = roles₂ r) : leavesCount roles₁ r = leavesCount roles₂ r := by
  unfold leavesCount
  rw [h]

theorem containerCols_ext {roles₁ roles₂ : Nat → Role} :
    ∀ rs : List Nat, (∀ r ∈ rs, roles₁ r = roles₂ r) →
      containerCols roles₁ rs = containerCols roles₂ rs := by
  have go : ∀ (rs : List Nat), (∀ r ∈ rs, roles₁ r = roles₂ r) → ∀ acc : Nat,
      rs.foldl (fun m r => max m (leavesCount roles₁ r + 1)) acc =
      rs.foldl (fun m r => max m (leavesCount roles₂ r + 1)) acc := by
    intro rs
    induction rs with
    | nil => intro _ _; rfl
    | cons r rs ih =>
      intro h acc
      simp only [List.foldl_cons]
      rw [leavesCount_congr (h r (List.mem_cons_self r rs))]
      exact ih (fun x hx => h x (List.mem_cons_of_mem r hx)) _
  intro rs h
  unfold containerCols
  rw [go rs h 0]

theorem uWidthF_ext (base : List EvIn) (e : EvIn) (rolesO rolesN : Nat → Role)
    (hag : ∀ j, j ≠ base.length → rolesN j = rolesO j)
    (hbd : rolesBounded base.length rolesO) :
    ∀ (f i : Nat), i < base.length →
      uWidthF (base ++ [e]) rolesN f i = uWidthF base rolesO f i := by
  intro f
  induction f with
  | zero => intro i _; rfl
  | succ f ih =>
    intro i hi
    have hb : (base ++ [e])[i]? = base[i]? := by
      rw [List.getElem?_append, if_pos hi]
    cases hbase : base[i]? with
    | none => simp only [uWidthF, hb, hbase]
    | some ev =>
      cases hdw : ev.dataWidth with
      | some w => simp only [uWidthF, hb, hbase, hdw]
      | none =>
        have hroles : rolesN i = rolesO i := hag i (by omega)
        cases hro : rolesO i with
        | container rs =>
          have hcc : containerCols rolesN rs = containerCols rolesO rs :=
            containerCols_ext rs (fun r hr => hag r (by
              have := hbd.1 i rs hro r hr
              omega))
          simp only [uWidthF, hb, hbase, hdw, hro, hroles.trans hro, hcc]
        | row c ls =>
          have hc : c < base.length := hbd.2.1 i c ls hro
          simp only [uWidthF, hb, hbase, hdw, hro, hroles.trans hro, ih c hc]
        | leaf c r =>
          have hr : r < base.length := hbd.2.2 i c r hro
          simp only [uWidthF, hb, hbase, hdw, hro, hroles.trans hro, ih r hr]
        | unassigned => simp only [uWidthF, hb, hbase, hdw, hro, hroles.trans hro]
        | grouped col => simp only [uWidthF, hb, hbase, hdw, hro, hroles.trans hro]

theorem uWidth_ext (base : List EvIn) (e : EvIn) (rolesO rolesN : Nat → Role)
    (hag : ∀ j, j ≠ base.length → rolesN j = rolesO j)
    (hbd : rolesBounded base.length rolesO) (i : Nat) (hi : i < base.length) :
    uWidth (base ++ [e]) rolesN i = uWidth base rolesO i :=
  uWidthF_ext base e rolesO rolesN hag hbd 3 i hi

theorem widthOf_ext (base : List EvIn) (e : EvIn) (rolesO rolesN : Nat → Role)
    (hag : ∀ j, j ≠ base.length → rolesN j = rolesO j)
    (hbd : rolesBounded base.length rolesO) (i : Nat) (hi : i < base.length) :
    widthOf (base ++ [e]) rolesN i = widthOf base rolesO i := by
  have huw := uWidth_ext base e rolesO rolesN hag hbd i hi
  have hroles : rolesN i = rolesO i := hag i (by omega)
  cases huo : uWidth base rolesO i with
  | none => simp only [widthOf, huw, huo]
  | some no =>
    cases hro : rolesO i with
    | container rs => simp only [widthOf, huw, huo, hro, hroles.trans hro]
    | row c ls => simp only [widthOf, huw, huo, hro, hroles.trans hro]
    | leaf c r =>
      have hr : r < base.length := hbd.2.2 i c r hro
      have hrr : rolesN r = rolesO r := hag r (by omega)
      cases hror : rolesO r with
      | row c2 ls2 =>
        simp only [widthOf, huw, huo, hro, hroles.trans hro, hror, hrr.trans hror]
      | container rs2 =>
        simp only [widthOf, huw, huo, hro, hroles.trans hro, hror, hrr.trans hror]
      | leaf c3 r3 =>
        simp only [widthOf, huw, huo, hro, hroles.trans hro, hror, hrr.trans hror]
      | unassigned =>
        simp only [widthOf, huw, huo, hro, hroles.trans hro, hror, hrr.trans hror]
      | grouped col =>
        simp only [widthOf, huw, huo, hro, hroles.trans hro, hror, hrr.trans hror]
    | unassigned => simp only [widthOf, huw, huo, hro, hroles.trans hro]
    | grouped col => simp only [widthOf, huw, huo, hro, hroles.trans hro]

theorem xOffsetRow_ext (base : List EvIn) (e : EvIn) (rolesO rolesN : Nat → Role)
    (hag : ∀ j, j ≠ base.length → rolesN j = rolesO j)
    (hbd : rolesBounded base.length rolesO) (r : Nat) (hr : r < base.length) :
    xOffsetRow (base ++ [e]) rolesN r = xOffsetRow base rolesO r := by
  have hroles : rolesN r = rolesO r := hag r (by omega)
  cases hro : rolesO r with
  | row cid ls =>
    have hc : cid < base.length := hbd.2.1 r cid ls hro
    have huw := uWidth_ext base e rolesO rolesN hag hbd cid hc
    simp only [xOffsetRow, hro, hroles.trans hro, huw]
  | container rs => simp only [xOffsetRow, hro, hroles.trans hro]
  | leaf c r2 => simp only [xOffsetRow, hro, hroles.trans hro]
  | unassigned => simp only [xOffsetRow, hro, hroles.trans hro]
  | grouped col => simp only [xOffsetRow, hro, hroles.trans hro]

theorem xOffsetOf_ext (base : List EvIn) (e : EvIn) (rolesO rolesN : Nat → Role)
    (hag : ∀ j, j ≠ base.length → rolesN j = rolesO j)
    (hbd : rolesBounded base.length rolesO) (i : Nat) (hi : i < base.length) :
    xOffsetOf (base ++ [e]) rolesN i = xOffsetOf base rolesO i := by
  have hroles : rolesN i = rolesO i := hag i (by omega)
  cases hro : rolesO i with
  | container rs => simp only [xOffsetOf, hro, hroles.trans hro]
  | grouped col =>
    cases col with
    | none => simp only [xOffsetOf, hro, hroles.trans hro]
    | some c =>
      have huw := uWidth_ext base e rolesO rolesN hag hbd i hi
      simp only [xOffsetOf, hro, hroles.trans hro, huw]
  | row cid ls =>
    simp only [xOffsetOf, hro, hroles.trans hro,
      xOffsetRow_ext base e rolesO rolesN hag hbd i hi]
  | leaf c r =>
    have hr : r < base.length := hbd.2.2 i c r hro
    have hrr : rolesN r = rolesO r := hag r (by omega)
    cases hror : rolesO r with
    | row c2 ls2 =>
      simp only [xOffsetOf, hro, hroles.trans hro, hror, hrr.trans hror,
        xOffsetRow_ext base e rolesO rolesN hag hbd r hr,
        uWidth_ext base e rolesO rolesN hag hbd r hr]
    | container rs2 => simp only [xOffsetOf, hro, hroles.trans hro, hror, hrr.trans hror]
    | leaf c3 r3 => simp only [xOffsetOf, hro, hroles.trans hro, hror, hrr.trans hror]
    | unassigned => simp only [xOffsetOf, hro, hroles.trans hro, hror, hrr.trans hror]
    | grouped col => simp only [xOffsetOf, hro, hroles.trans hro, hror, hrr.trans hror]
  | unassigned => simp only [xOffsetOf, hro, hroles.trans hro]

theorem styleAll_ext (base : List EvIn) (e : EvIn) (rolesO rolesN : Nat → Role)
    (hag : ∀ j, j ≠ base.length → rolesN j = rolesO j)
    (hbd : rolesBounded base.length rolesO) :
    ∀ l : List IdEv, (∀ ie ∈ l, ie.1 < base.length) →
      styleAll (base ++ [e]) rolesN l = styleAll base rolesO l := by
  intro l
  induction l with
  | nil => intro _; rfl
  | cons ie rest ih =>
    intro h
    have hi := h ie (List.mem_cons_self ie rest)
    simp only [styleAll, widthOf_ext base e rolesO rolesN hag hbd ie.1 hi,
      xOffsetOf_ext base e rolesO rolesN hag hbd ie.1 hi,
      ih (fun x hx => h x (List.mem_cons_of_mem ie hx))]

theorem findMovableGo_none (endMs : Int) :
    ∀ ts : List IdEv, (∀ t ∈ ts, t.2.startMs < endMs) → ∀ b : Bool,
      findMovableGo endMs b ts = none := by
  intro ts
  induction ts with
  | nil => intro _ b; rfl
  | cons t ts ih =>
    intro h b
    have ht : t.2.startMs < endMs := h t (List.mem_cons_self t ts)
    simp only [findMovableGo, if_pos ht,
      ih (fun x hx => h x (List.mem_cons_of_mem t hx)) false]

theorem renderLoop_ident :
    ∀ (fuel : Nat) (l : List IdEv), l.length ≤ fuel →
      (∀ p ∈ l, ∀ q ∈ l, q.2.startMs < p.2.endMs) → renderLoop fuel l = l := by
  intro fuel
  induction fuel with
  | zero =>
    intro l hl _
    cases l with
    | nil => rfl
    | cons a l =>
      simp only [List.length_cons] at hl
      omega
  | succ f ih =>
    intro l hl hov
    cases l with
    | nil => rfl
    | cons p rest =>
      have hrest : renderLoop f rest = rest := ih rest
        (by simp only [List.length_cons] at hl; omega)
        (fun a ha b hb => hov a (List.mem_cons_of_mem p ha) b (List.mem_cons_of_mem p hb))
      cases hty : p.2.eventType with
      | some k => simp [renderLoop, hty, hrest]
      | none =>
        have hmv : findMovableGo p.2.endMs true rest = none :=
          findMovableGo_none p.2.endMs rest
            (fun t ht' => hov p (List.mem_cons_self p rest) t (List.mem_cons_of_mem p ht'))
            true
        simp [renderLoop, hty, hmv, hrest]

theorem orderedInsert_append_last {a x : IdEv} (hax : renderLE a x) :
    ∀ s : List IdEv, List.orderedInsert renderLE a (s ++ [x]) =
      List.orderedInsert renderLE a s ++ [x] := by
  intro s
  induction s with
  | nil =>
    simp only [List.nil_append, List.orderedInsert]
    rw [if_pos hax]
    rfl
  | cons b s ih =>
    simp only [List.cons_append, List.orderedInsert]
    by_cases hab : renderLE a b
    · rw [if_pos hab, if_pos hab]
      rfl
    · rw [if_neg hab, if_neg hab]
      exact congrArg (fun t => b :: t) ih

theorem sortedByTime_append_last {x : IdEv} :
    ∀ l : List IdEv, (∀ a ∈ l, renderLE a x) →
      sortedByTime (l ++ [x]) = sortedByTime l ++ [x] := by
  intro l
  induction l with
  | nil => intro _; rfl
  | cons b l ih =>
    intro h
    have hbx : renderLE b x := h b (List.mem_cons_self b l)
    have h1 : sortedByTime ((b :: l) ++ [x]) =
        List.orderedInsert renderLE b (sortedByTime (l ++ [x])) := rfl
    have h2 : sortedByTime (b :: l) = List.orderedInsert renderLE b (sortedByTime l) := rfl
    rw [h1, h2, ih (fun a ha => h a (List.mem_cons_of_mem b ha)),
      orderedInsert_append_last hbx]

theorem findMovable_last (endMs : Int) (x : IdEv) (hx : ¬ x.2.startMs < endMs)
    (hxu : x.2.eventType = none) :
    ∀ (ts : List IdEv) (b : Bool), (b = true → ts ≠ []) →
      (∀ t ∈ ts, t.2.startMs < endMs) →
      findMovableGo endMs b (ts ++ [x]) = some (x, ts) := by
  intro ts
  induction ts with
  | nil =>
    intro b hb _
    cases b with
    | true => exact absurd rfl (hb rfl)
    | false => simp [findMovableGo, hx, hxu]
  | cons t ts ih =>
    intro b hb h
    have ht : t.2.startMs < endMs := h t (List.mem_cons_self t ts)
    have hrec := ih false (fun h' => by cases h')
      (fun a ha => h a (List.mem_cons_of_mem t ha))
    simp only [List.cons_append, findMovableGo, if_pos ht, List.append_eq, hrec]

theorem findq_congr {α : Type} (p q : α → Bool) :
    ∀ l : List α, (∀ a ∈ l, p a = q a) → List.find? p l = List.find? q l := by
  intro l
  induction l with
  | nil => intro _; rfl
  | cons a l ih =>
    intro h
    have hpa := h a (List.mem_cons_self a l)
    cases hqa : q a with
    | true => rw [List.find?_cons_of_pos l (hpa.trans hqa), List.find?_cons_of_pos l hqa]
    | false =>
      rw [List.find?_cons_of_neg l (by simp [hpa, hqa]),
        List.find?_cons_of_neg l (by simp [hqa]),
        ih (fun x hx => h x (List.mem_cons_of_mem a hx))]

theorem findRow_congr (base : List EvIn) (es : List EvIn) (d : Int) (e : EvIn) :
    ∀ rs : List Nat, (∀ r ∈ rs, r < base.length) →
      findRow (base ++ es) d rs e = findRow base d rs e := by
  intro rs h
  unfold findRow
  apply findq_congr
  intro rid hrid
  have hr : rid < base.length := h rid (List.mem_reverse.mp hrid)
  rw [List.getElem?_append, if_pos hr]

theorem pushLeaf_cases (roles : Nat → Role) (rid x j : Nat) :
    pushLeaf roles rid x j = roles j ∨
    (j = rid ∧ ∃ c ls, roles rid = Role.row c ls ∧
      pushLeaf roles rid x j = Role.row c (ls ++ [x])) := by
  cases hr : roles rid with
  | row c ls =>
    by_cases hje : j = rid
    · right
      refine ⟨hje, c, ls, rfl, ?_⟩
      subst hje
      simp only [pushLeaf, hr, setRole, eq_self_iff_true, if_true]
    · left
      simp only [pushLeaf, hr, setRole, if_neg hje]
  | unassigned => left; simp only [pushLeaf, hr]
  | container a => left; simp only [pushLeaf, hr]
  | leaf a b => left; simp only [pushLeaf, hr]
  | grouped a => left; simp only [pushLeaf, hr]

theorem pushRow_cases (roles : Nat → Role) (cid x j : Nat) :
    pushRow roles cid x j = roles j ∨
    (j = cid ∧ ∃ rs, roles cid = Role.container rs ∧
      pushRow roles cid x j = Role.container (rs ++ [x])) := by
  cases hr : roles cid with
  | container rs =>
    by_cases hje : j = cid
    · right
      refine ⟨hje, rs, rfl, ?_⟩
      subst hje
      simp only [pushRow, hr, setRole, eq_self_iff_true, if_true]
    · left
      simp only [pushRow, hr, setRole, if_neg hje]
  | unassigned => left; simp only [pushRow, hr]
  | row a b => left; simp only [pushRow, hr]
  | leaf a b => left; simp only [pushRow, hr]
  | grouped a => left; simp only [pushRow, hr]

theorem rolesBounded_pushLeaf {n : Nat} {roles : Nat → Role} {rid x : Nat}
    (h : rolesBounded n roles) : rolesBounded n (pushLeaf roles rid x) := by
  refine ⟨?_, ?_, ?_⟩ <;> intro j
  · intro rs hj r hr
    rcases pushLeaf_cases roles rid x j with hc | ⟨rfl, c, ls, hrr, hval⟩
    · rw [hc] at hj
      exact h.1 j rs hj r hr
    · rw [hval] at hj
      exact Role.noConfusion hj
  · intro cid ls' hj
    rcases pushLeaf_cases roles rid x j with hc | ⟨rfl, c, ls, hrr, hval⟩
    · rw [hc] at hj
      exact h.2.1 j cid ls' hj
    · rw [hval] at hj
      injection hj with h1 h2
      subst h1
      exact h.2.1 j c ls hrr
  · intro c r hj
    rcases pushLeaf_cases roles rid x j with hc | ⟨rfl, c2, ls, hrr, hval⟩
    · rw [hc] at hj
      exact h.2.2 j c r hj
    · rw [hval] at hj
      exact Role.noConfusion hj

theorem rolesBounded_pushRow {n : Nat} {roles : Nat → Role} {cid x : Nat}
    (h : rolesBounded n roles) (hx : x < n) : rolesBounded n (pushRow roles cid x) := by
  refine ⟨?_, ?_, ?_⟩ <;> intro j
  · intro rs hj r hr
    rcases pushRow_cases roles cid x j with hc | ⟨rfl, rs0, hrr, hval⟩
    · rw [hc] at hj
      exact h.1 j rs hj r hr
    · rw [hval] at hj
      injection hj with h1
      subst h1
      rcases List.mem_append.mp hr with hr | hr
      · exact h.1 j rs0 hrr r hr
      · simp only [List.mem_singleton] at hr
        omega
  · intro cid' ls' hj
    rcases pushRow_cases roles cid x j with hc | ⟨rfl, rs0, hrr, hval⟩
    · rw [hc] at hj
      exact h.2.1 j cid' ls' hj
    · rw [hval] at hj
      exact Role.noConfusion hj
  · intro c r hj
    rcases pushRow_cases roles cid x j with hc | ⟨rfl, rs0, hrr, hval⟩
    · rw [hc] at hj
      exact h.2.2 j c r hj
    · rw [hval] at hj
      exact Role.noConfusion hj

theorem rolesBounded_setRole {n : Nat} {roles : Nat → Role} {i : Nat} {v : Role}
    (h : rolesBounded n roles)
    (hv1 : ∀ rs, v = Role.container rs → ∀ r ∈ rs, r < n)
    (hv2 : ∀ cid ls, v = Role.row cid ls → cid < n)
    (hv3 : ∀ c r, v = Role.leaf c r → r < n) :
    rolesBounded n (setRole roles i v) := by
  refine ⟨?_, ?_, ?_⟩ <;> intro j
  · intro rs hj
    by_cases hje : j = i
    · rw [hje, setRole_self] at hj
      exact hv1 rs hj
    · rw [setRole_ne _ _ hje] at hj
      exact h.1 j rs hj
  · intro cid ls hj
    by_cases hje : j = i
    · rw [hje, setRole_self] at hj
      exact hv2 cid ls hj
    · rw [setRole_ne _ _ hje] at hj
      exact h.2.1 j cid ls hj
  · intro c r hj
    by_cases hje : j = i
    · rw [hje, setRole_self] at hj
      exact hv3 c r hj
    · rw [setRole_ne _ _ hje] at hj
      exact h.2.2 j c r hj

theorem pushLeaf_congr {roles₁ roles₂ : Nat → Role} {rid x j : Nat}
    (hrid : roles₁ rid = roles₂ rid) (hj : roles₁ j = roles₂ j) :
    pushLeaf roles₁ rid x j = pushLeaf roles₂ rid x j := by
  cases hr : roles₂ rid with
  | row c ls =>
    simp only [pushLeaf, hr, hrid.trans hr, setRole]
    by_cases hje : j = rid
    · rw [if_pos hje, if_pos hje]
    · rw [if_neg hje, if_neg hje, hj]
  | unassigned => simp only [pushLeaf, hr, hrid.trans hr]; exact hj
  | container a => simp only [pushLeaf, hr, hrid.trans hr]; exact hj
  | leaf a b => simp only [pushLeaf, hr, hrid.trans hr]; exact hj
  | grouped a => simp only [pushLeaf, hr, hrid.trans hr]; exact hj

theorem pushRow_congr {roles₁ roles₂ : Nat → Role} {cid x j : Nat}
    (hcid : roles₁ cid = roles₂ cid) (hj : roles₁ j = roles₂ j) :
    pushRow roles₁ cid x j = pushRow roles₂ cid x j := by
  cases hr : roles₂ cid with
  | container rs =>
    simp only [pushRow, hr, hcid.trans hr, setRole]
    by_cases hje : j = cid
    · rw [if_pos hje, if_pos hje]
    · rw [if_neg hje, if_neg hje, hj]
  | unassigned => simp only [pushRow, hr, hcid.trans hr]; exact hj
  | row a b => simp only [pushRow, hr, hcid.trans hr]; exact hj
  | leaf a b => simp only [pushRow, hr, hcid.trans hr]; exact hj
  | grouped a => simp only [pushRow, hr, hcid.trans hr]; exact hj

/-- Paired simulation of the clustering fold on `base` against the fold on
`base ++ [e]` whose state additionally holds the container `(base.length, e)`: when
every remaining event overlaps the head container `s0` and is still unassigned, both
folds succeed, the role maps agree away from the id `base.length`, and the original
side stays bounded. -/
theorem pairRun (base : List EvIn) (e : EvIn) (d : Int) (s0 : IdEv)
    (hs0lt : s0.1 < base.length)
    (hpred : ∀ p ∈ base, p.pstart < s0.2.pend) :
    ∀ (rest : List IdEv) (stO stN : CState),
      stO.containers = [s0] →
      stN.containers = [s0, (base.length, e)] →
      (∀ j, j ≠ base.length → stN.roles j = stO.roles j) →
      stN.roles base.length = Role.container [] →
      (∃ rs, stO.roles s0.1 = Role.container rs) →
      rolesBounded base.length stO.roles →
      (∀ ie ∈ rest, ie.2.eventType = none ∧ ie.2 ∈ base ∧ ie.1 < base.length ∧
        stO.roles ie.1 = Role.unassigned) →
      (rest.map Prod.fst).Nodup →
      ∃ stO' stN',
        List.foldlM (clusterStep base d) stO rest = some stO' ∧
        List.foldlM (clusterStep (base ++ [e]) d) stN rest = some stN' ∧
        (∀ j, j ≠ base.length → stN'.roles j = stO'.roles j) ∧
        stN'.roles base.length = Role.container [] ∧
        rolesBounded base.length stO'.roles := by
  intro rest
  induction rest with
  | nil =>
    intro stO stN _ _ hag hnN _ hbd _ _
    exact ⟨stO, stN, rfl, rfl, hag, hnN, hbd⟩
  | cons p rest ih =>
    intro stO stN hcO hcN hag hnN hs0r hbd hrest hnd
    obtain ⟨hty, hpb, hplt, hpun⟩ := hrest p (List.mem_cons_self p rest)
    obtain ⟨rs, hcr⟩ := hs0r
    have hpltpend : p.2.pstart < s0.2.pend := hpred p.2 hpb
    have hps0 : p.1 ≠ s0.1 := fun he => by
      rw [← he, hpun] at hcr
      exact Role.noConfusion hcr
    have hpn : p.1 ≠ base.length := by omega
    have hninl : p.1 ∉ rest.map Prod.fst := (List.nodup_cons.mp hnd).1
    have hndt : (rest.map Prod.fst).Nodup := (List.nodup_cons.mp hnd).2
    have htne : ∀ ie' ∈ rest, ie'.1 ≠ p.1 := fun ie' hie' he =>
      hninl (he ▸ List.mem_map_of_mem Prod.fst hie')
    have hfO : findContainer d stO.containers p.2 = some s0 := by
      rw [hcO]
      unfold findContainer
      exact List.find?_cons_of_pos _ (by simp [hpltpend])
    have hfN : findContainer d stN.containers p.2 = some s0 := by
      rw [hcN]
      unfold findContainer
      exact List.find?_cons_of_pos _ (by simp [hpltpend])
    have hcrN : stN.roles s0.1 = Role.container rs := (hag s0.1 (by omega)).trans hcr
    have hrsbd : ∀ r ∈ rs, r < base.length := hbd.1 s0.1 rs hcr
    have hfrN : findRow (base ++ [e]) d rs p.2 = findRow base d rs p.2 :=
      findRow_congr base [e] d p.2 rs hrsbd
    cases hfr : findRow base d rs p.2 with
    | some rid =>
      have hfr' := hfr
      unfold findRow at hfr'
      have hridn : rid < base.length :=
        hrsbd rid (List.mem_reverse.mp (List.mem_of_find?_eq_some hfr'))
      have hstepO : clusterStep base d stO p =
          some ⟨setRole (pushLeaf stO.roles rid p.1) p.1 (Role.leaf s0.1 rid),
            stO.containers, stO.matrices⟩ := by
        simp only [clusterStep, hty, hfO, hcr, hfr]
      have hstepN : clusterStep (base ++ [e]) d stN p =
          some ⟨setRole (pushLeaf stN.roles rid p.1) p.1 (Role.leaf s0.1 rid),
            stN.containers, stN.matrices⟩ := by
        simp only [clusterStep, hty, hfN, hcrN, hfrN, hfr]
      obtain ⟨stO', stN', hfoldO, hfoldN, hag', hnN', hbd'⟩ := ih
        ⟨setRole (pushLeaf stO.roles rid p.1) p.1 (Role.leaf s0.1 rid),
          stO.containers, stO.matrices⟩
        ⟨setRole (pushLeaf stN.roles rid p.1) p.1 (Role.leaf s0.1 rid),
          stN.containers, stN.matrices⟩
        hcO hcN
        (by
          intro j hj
          dsimp only
          by_cases hje : j = p.1
          · rw [hje, setRole_self, setRole_self]
          · rw [setRole_ne _ _ hje, setRole_ne _ _ hje]
            exact pushLeaf_congr (hag rid (by omega)) (hag j hj))
        (by
          dsimp only
          rw [setRole_ne _ _ (Ne.symm hpn)]
          refine (pushLeaf_stable ?_).trans hnN
          intro c2 ls2 hcontra
          rw [hnN] at hcontra
          exact Role.noConfusion hcontra)
        (by
          dsimp only
          refine ⟨rs, ?_⟩
          rw [setRole_ne _ _ (Ne.symm hps0)]
          refine (pushLeaf_stable ?_).trans hcr
          intro c2 ls2 hcontra
          rw [hcr] at hcontra
          exact Role.noConfusion hcontra)
        (by
          dsimp only
          refine rolesBounded_setRole (rolesBounded_pushLeaf hbd) ?_ ?_ ?_
          · intro rs' hv
            exact Role.noConfusion hv
          · intro cid ls hv
            exact Role.noConfusion hv
          · intro c2 r2 hv
            injection hv with h1 h2
            omega)
        (by
          dsimp only
          intro ie' hie'
          obtain ⟨h1, h2, h3, h4⟩ := hrest ie' (List.mem_cons_of_mem p hie')
          refine ⟨h1, h2, h3, ?_⟩
          rw [setRole_ne _ _ (htne ie' hie')]
          refine (pushLeaf_stable ?_).trans h4
          intro c2 ls2 hcontra
          rw [h4] at hcontra
          exact Role.noConfusion hcontra)
        hndt
      refine ⟨stO', stN', ?_, ?_, hag', hnN', hbd'⟩
      · rw [List.foldlM_cons, hstepO]
        exact hfoldO
      · rw [List.foldlM_cons, hstepN]
        exact hfoldN
    | none =>
      have hstepO : clusterStep base d stO p =
          some ⟨setRole (pushRow stO.roles s0.1 p.1) p.1 (Role.row s0.1 []),
            stO.containers, stO.matrices⟩ := by
        simp only [clusterStep, hty, hfO, hcr, hfr]
      have hstepN : clusterStep (base ++ [e]) d stN p =
          some ⟨setRole (pushRow stN.roles s0.1 p.1) p.1 (Role.row s0.1 []),
            stN.containers, stN.matrices⟩ := by
        simp only [clusterStep, hty, hfN, hcrN, hfrN, hfr]
      obtain ⟨stO', stN', hfoldO, hfoldN, hag', hnN', hbd'⟩ := ih
        ⟨setRole (pushRow stO.roles s0.1 p.1) p.1 (Role.row s0.1 []),
          stO.containers, stO.matrices⟩
        ⟨setRole (pushRow stN.roles s0.1 p.1) p.1 (Role.row s0.1 []),
          stN.containers, stN.matrices⟩
        hcO hcN
        (by
          intro j hj
          dsimp only
          by_cases hje : j = p.1
          · rw [hje, setRole_self, setRole_self]
          · rw [setRole_ne _ _ hje, setRole_ne _ _ hje]
            exact pushRow_congr (hag s0.1 (by omega)) (hag j hj))
        (by
          dsimp only
          rw [setRole_ne _ _ (Ne.symm hpn)]
          rw [pushRow_ne (by omega : base.length ≠ s0.1)]
          exact hnN)
        (by
          dsimp only
          refine ⟨rs ++ [p.1], ?_⟩
          rw [setRole_ne _ _ (Ne.symm hps0)]
          exact pushRow_self hcr)
        (by
          dsimp only
          refine rolesBounded_setRole (rolesBounded_pushRow hbd hplt) ?_ ?_ ?_
          · intro rs' hv
            exact Role.noConfusion hv
          · intro cid ls hv
            injection hv with h1 h2
            omega
          · intro c2 r2 hv
            exact Role.noConfusion hv)
        (by
          dsimp only
          intro ie' hie'
          obtain ⟨h1, h2, h3, h4⟩ := hrest ie' (List.mem_cons_of_mem p hie')
          refine ⟨h1, h2, h3, ?_⟩
          rw [setRole_ne _ _ (htne ie' hie')]
          refine (pushRow_stable ?_).trans h4
          intro rs2 hcontra
          rw [h4] at hcontra
          exact Role.noConfusion hcontra)
        hndt
      refine ⟨stO', stN', ?_, ?_, hag', hnN', hbd'⟩
      · rw [List.foldlM_cons, hstepO]
        exact hfoldO
      · rw [List.foldlM_cons, hstepN]
        exact hfoldN

theorem renderLoop_one (x : IdEv) : ∀ fuel, 0 < fuel → renderLoop fuel [x] = [x] := by
  intro fuel h
  cases fuel with
  | zero => omega
  | succ f =>
    have hnil : renderLoop f [] = [] := by cases f <;> rfl
    cases hty : x.2.eventType with
    | some k => simp [renderLoop, hty, hnil]
    | none => simp [renderLoop, hty, findMovableGo, hnil]

/-- C8: appending an event `e` that starts at or after the end of every event of the
pairwise-overlapping ungrouped list `base` — and beyond the `minimumStartDifference`
tolerance of every start — leaves every original event's output record (its width and
xOffset included) unchanged: the new output agrees with the old one on every original
id. -/
theorem c8_append_after (base : List EvIn) (e : EvIn) (d : Int)
    (hovl : ∀ p ∈ base, ∀ q ∈ base, q.startMs < p.endMs ∧ q.pstart < p.pend)
    (hdisj : ∀ p ∈ base, p.endMs ≤ e.startMs ∧ p.pend ≤ e.pstart ∧
      d.toNat ≤ (e.pstart - p.pstart).natAbs)
    (hung : ∀ p ∈ base, p.eventType = none) (hque : e.eventType = none)
    (out out' : List Styled)
    (hO : getStyledEvents d base = some out)
    (hN : getStyledEvents d (base ++ [e]) = some out') :
    ∀ k, k < base.length →
      out'.find? (fun s => s.id == k) = out.find? (fun s => s.id == k) := by
  intro k hk
  have hn0 : 0 < base.length := by omega
  have hperm : List.Perm (sortedByTime base.enum) base.enum :=
    List.perm_insertionSort renderLE base.enum
  have hmemS : ∀ t ∈ sortedByTime base.enum, t.1 < base.length ∧ t.2 ∈ base := by
    intro t ht
    have htm : t ∈ base.enum := hperm.mem_iff.mp ht
    have hget : base[t.1]? = some t.2 :=
      List.mk_mem_enum_iff_getElem?.mp (show (t.1, t.2) ∈ base.enum from htm)
    rcases List.getElem?_eq_some_iff.mp hget with ⟨hlt, -⟩
    exact ⟨hlt, mem_of_getElem' hget⟩
  have hndS : ((sortedByTime base.enum).map Prod.fst).Nodup := by
    rw [(hperm.map Prod.fst).nodup_iff, List.enum_map_fst base]
    exact List.nodup_range _
  have hlenS : (sortedByTime base.enum).length = base.length := by
    rw [hperm.length_eq, List.enum_length]
  obtain ⟨s0, srest, hS⟩ : ∃ s0 srest, sortedByTime base.enum = s0 :: srest := by
    cases h : sortedByTime base.enum with
    | nil =>
      rw [h] at hlenS
      simp at hlenS
      omega
    | cons a l => exact ⟨a, l, rfl⟩
  have hs0f : s0.1 < base.length ∧ s0.2 ∈ base :=
    hmemS s0 (by rw [hS]; exact List.mem_cons_self _ _)
  have hsrf : ∀ t ∈ srest, t.1 < base.length ∧ t.2 ∈ base :=
    fun t ht => hmemS t (by rw [hS]; exact List.mem_cons_of_mem _ ht)
  have hovS : ∀ p ∈ sortedByTime base.enum, ∀ q ∈ sortedByTime base.enum,
      q.2.startMs < p.2.endMs :=
    fun p hp q hq => (hovl p.2 (hmemS p hp).2 q.2 (hmemS q hq).2).1
  have hty0 : s0.2.eventType = none := hung s0.2 hs0f.2
  have horder : sortByRender base.enum = s0 :: srest := by
    show renderLoop base.enum.length (sortedByTime base.enum) = s0 :: srest
    rw [hS]
    apply renderLoop_ident
    · have hl := hlenS
      rw [hS] at hl
      rw [List.enum_length]
      omega
    · intro p hp q hq
      exact hovS p (by rw [hS]; exact hp) q (by rw [hS]; exact hq)
  have hLEe : ∀ a ∈ base.enum, renderLE a (base.length, e) := by
    intro a ha
    have hget : base[a.1]? = some a.2 :=
      List.mk_mem_enum_iff_getElem?.mp (show (a.1, a.2) ∈ base.enum from ha)
    have hab : a.2 ∈ base := mem_of_getElem' hget
    have h1 : a.2.startMs < a.2.endMs := (hovl a.2 hab a.2 hab).1
    have h2 : a.2.endMs ≤ e.startMs := (hdisj a.2 hab).1
    have hlt : a.2.startMs < e.startMs := by omega
    unfold renderLE renderCmp
    dsimp only
    rw [hung a.2 hab, hque]
    simp [typeCmpDesc, intCmp, hlt, Ordering.then]
  have henumN : (base ++ [e]).enum = base.enum ++ [(base.length, e)] := by
    simp [List.enum_append]
  have hsortN : sortedByTime ((base ++ [e]).enum) =
      (s0 :: srest) ++ [(base.length, e)] := by
    rw [henumN, sortedByTime_append_last base.enum hLEe, hS]
  have hsreln : srest.length + 1 = base.length := by
    have hl := hlenS
    rw [hS] at hl
    simp only [List.length_cons] at hl
    omega
  have hxe : ¬ ((base.length, e) : IdEv).2.startMs < s0.2.endMs := by
    have := (hdisj s0.2 hs0f.2).1
    dsimp only
    omega
  have hquee : ((base.length, e) : IdEv).2.eventType = none := hque
  have horderN : sortByRender ((base ++ [e]).enum) =
      s0 :: (base.length, e) :: srest := by
    show renderLoop ((base ++ [e]).enum).length (sortedByTime ((base ++ [e]).enum)) =
      s0 :: (base.length, e) :: srest
    rw [hsortN]
    have hfuel : ((base ++ [e]).enum).length = base.length + 1 := by
      rw [List.enum_length]
      simp
    rw [hfuel]
    cases hsr : srest with
    | nil =>
      have hmv : findMovableGo s0.2.endMs true [(base.length, e)] = none := by
        simp [findMovableGo, hxe, hquee]
      simp [renderLoop, hty0, hmv, renderLoop_one (base.length, e) base.length hn0]
    | cons t1 ts =>
      have hskip : ∀ t ∈ t1 :: ts, t.2.startMs < s0.2.endMs := by
        intro t ht
        exact hovS s0 (by rw [hS]; exact List.mem_cons_self _ _) t
          (by rw [hS, hsr]; exact List.mem_cons_of_mem _ ht)
      have hmv : findMovableGo s0.2.endMs true (t1 :: (ts ++ [(base.length, e)])) =
          some ((base.length, e), t1 :: ts) := by
        have h0 := findMovable_last s0.2.endMs (base.length, e) hxe hquee (t1 :: ts) true
          (fun _ => by simp) hskip
        rw [List.cons_append] at h0
        exact h0
      have hid : renderLoop base.length (t1 :: ts) = t1 :: ts := by
        apply renderLoop_ident
        · have : (t1 :: ts).length = srest.length := by rw [hsr]
          omega
        · intro p hp q hq
          rw [← hsr] at hp hq
          exact hovS p (by rw [hS]; exact List.mem_cons_of_mem _ hp) q
            (by rw [hS]; exact List.mem_cons_of_mem _ hq)
      simp [renderLoop, hty0, hmv, hid]
  have hs0lt := hs0f.1
  have hpredAll : ∀ p ∈ base, p.pstart < s0.2.pend :=
    fun p hp => (hovl s0.2 hs0f.2 p hp).2
  have hstep1O : clusterStep base d initState s0 =
      some ⟨setRole (fun _ => Role.unassigned) s0.1 (Role.container []), [s0], []⟩ := by
    simp [clusterStep, hty0, findContainer, initState]
  have hstep1N : clusterStep (base ++ [e]) d initState s0 =
      some ⟨setRole (fun _ => Role.unassigned) s0.1 (Role.container []), [s0], []⟩ := by
    simp [clusterStep, hty0, findContainer, initState]
  have hfc2 : findContainer d [s0] e = none := by
    unfold findContainer
    rw [List.find?_cons_of_neg]
    · rfl
    · have h1 : ¬ e.pstart < s0.2.pend := by
        have := (hdisj s0.2 hs0f.2).2.1
        omega
      have h2 : ¬ (e.pstart - s0.2.pstart).natAbs < d.toNat := by
        have := (hdisj s0.2 hs0f.2).2.2
        omega
      simp [h1, h2]
  have hstep2N : clusterStep (base ++ [e]) d
      ⟨setRole (fun _ => Role.unassigned) s0.1 (Role.container []), [s0], []⟩
      (base.length, e) =
      some ⟨setRole (setRole (fun _ => Role.unassigned) s0.1 (Role.container []))
        base.length (Role.container []), [s0, (base.length, e)], []⟩ := by
    simp [clusterStep, hque, hfc2]
  have hndsr : (srest.map Prod.fst).Nodup ∧ s0.1 ∉ srest.map Prod.fst := by
    rw [hS] at hndS
    simp only [List.map_cons] at hndS
    exact ⟨(List.nodup_cons.mp hndS).2, (List.nodup_cons.mp hndS).1⟩
  obtain ⟨stO', stN', hfoldO, hfoldN, hagF, hnNF, hbdF⟩ :=
    pairRun base e d s0 hs0lt hpredAll srest
      ⟨setRole (fun _ => Role.unassigned) s0.1 (Role.container []), [s0], []⟩
      ⟨setRole (setRole (fun _ => Role.unassigned) s0.1 (Role.container []))
        base.length (Role.container []), [s0, (base.length, e)], []⟩
      rfl rfl
      (by
        intro j hj
        dsimp only
        rw [setRole_ne _ _ hj])
      (by
        dsimp only
        rw [setRole_self])
      ⟨[], by dsimp only; rw [setRole_self]⟩
      (by
        dsimp only
        refine rolesBounded_setRole
          ⟨fun j rs h => Role.noConfusion h, fun j cid ls h => Role.noConfusion h,
            fun j c r h => Role.noConfusion h⟩ ?_ ?_ ?_
        · intro rs hv r hr
          injection hv with h1
          subst h1
          cases hr
        · intro cid ls hv
          exact Role.noConfusion hv
        · intro c r hv
          exact Role.noConfusion hv)
      (by
        intro ie hie
        refine ⟨hung ie.2 (hsrf ie hie).2, (hsrf ie hie).2, (hsrf ie hie).1, ?_⟩
        dsimp only
        rw [setRole_ne _ _ (by
          intro he
          exact hndsr.2 (by rw [← he]; exact List.mem_map_of_mem Prod.fst hie))])
      hndsr.1
  have hcaO : clusterAll base d (s0 :: srest) = some stO' := by
    show List.foldlM (clusterStep base d) initState (s0 :: srest) = some stO'
    rw [List.foldlM_cons, hstep1O]
    exact hfoldO
  have hcaN : clusterAll (base ++ [e]) d (s0 :: (base.length, e) :: srest) =
      some stN' := by
    show List.foldlM (clusterStep (base ++ [e]) d) initState
      (s0 :: (base.length, e) :: srest) = some stN'
    rw [List.foldlM_cons, hstep1N]
    show List.foldlM (clusterStep (base ++ [e]) d)
      ⟨setRole (fun _ => Role.unassigned) s0.1 (Role.container []), [s0], []⟩
      ((base.length, e) :: srest) = some stN'
    rw [List.foldlM_cons, hstep2N]
    exact hfoldN
  simp only [getStyledEvents, horder, hcaO] at hO
  simp only [getStyledEvents, horderN, hcaN] at hN
  have hwx0 : widthOf (base ++ [e]) stN'.roles s0.1 = widthOf base stO'.roles s0.1 :=
    widthOf_ext base e stO'.roles stN'.roles hagF hbdF s0.1 hs0lt
  have hxx0 : xOffsetOf (base ++ [e]) stN'.roles s0.1 = xOffsetOf base stO'.roles s0.1 :=
    xOffsetOf_ext base e stO'.roles stN'.roles hagF hbdF s0.1 hs0lt
  have htail : styleAll (base ++ [e]) stN'.roles srest = styleAll base stO'.roles srest :=
    styleAll_ext base e stO'.roles stN'.roles hagF hbdF srest
      (fun ie hie => (hsrf ie hie).1)
  simp only [styleAll] at hO hN
  rcases Option.bind_eq_some.mp hO with ⟨w0, hw0v, hO2⟩
  rcases Option.bind_eq_some.mp hO2 with ⟨x0, hx0v, hO3⟩
  rcases Option.map_eq_some'.mp hO3 with ⟨outR, houtR, houteq⟩
  rcases Option.bind_eq_some.mp hN with ⟨w0', hw0', hN2⟩
  rcases Option.bind_eq_some.mp hN2 with ⟨x0', hx0', hN3⟩
  rcases Option.map_eq_some'.mp hN3 with ⟨outT, houtT, hout'eq⟩
  rcases Option.bind_eq_some.mp houtT with ⟨wE, hwE, hT2⟩
  rcases Option.bind_eq_some.mp hT2 with ⟨xE, hxE, hT3⟩
  rcases Option.map_eq_some'.mp hT3 with ⟨outR', houtR', houtTeq⟩
  have hw0e : w0' = w0 := by
    rw [hwx0, hw0v] at hw0'
    injection hw0' with h
    exact h.symm
  have hx0e : x0' = x0 := by
    rw [hxx0, hx0v] at hx0'
    injection hx0' with h
    exact h.symm
  have houtRe : outR' = outR := by
    rw [htail, houtR] at houtR'
    injection houtR' with h
    exact h.symm
  subst hw0e hx0e houtRe
  rw [← hout'eq, ← houtTeq, ← houteq]
  by_cases hk0 : (s0.1 == k) = true
  · rw [List.find?_cons_of_pos _ (by simpa using hk0),
      List.find?_cons_of_pos _ (by simpa using hk0)]
  · rw [List.find?_cons_of_neg _ (by simpa using hk0),
      List.find?_cons_of_neg _ (by simp only [beq_iff_eq]; omega),
      List.find?_cons_of_neg _ (by simpa using hk0)]

/-- A one-event base list for the C8 witness. -/
def c8Base : List EvIn := [⟨0, 10, 0, 10, 0, 0, none, none⟩]

/-- An event far beyond `c8Base`: after its end and beyond the tolerance `d = 3`. -/
def c8Far : EvIn := ⟨100, 200, 100, 200, 0, 0, none, none⟩

def c8Out : List Styled := [⟨0, 0, 0, ⟨100, "%"⟩, ⟨0, ""⟩⟩]

def c8Out' : List Styled :=
  [⟨0, 0, 0, ⟨100, "%"⟩, ⟨0, ""⟩⟩, ⟨1, 0, 0, ⟨100, "%"⟩, ⟨0, ""⟩⟩]

/-- Witness for C8 at a concrete input and id 0. -/
theorem c8_witness :
    c8Out'.find? (fun s => s.id == 0) = c8Out.find? (fun s => s.id == 0) :=
  c8_append_after c8Base c8Far 3 (by decide) (by decide) (by decide) (by decide)
    c8Out c8Out' (by decide) (by decide) 0 (by decide)

/-- The C8 base list `[0,10)` and an event `[10,30)` starting exactly at its end. -/
def c8L : List EvIn := [⟨0, 10, 0, 10, 0, 0, none, none⟩]

def c8E : EvIn := ⟨10, 30, 10, 30, 0, 0, none, none⟩

/-- Counterexample to C8 as stated: with `minimumStartDifference = 20`, the appended
event `c8E` starts at (hence at-or-after) the end of every event of `c8L`, yet
`|10 - 0| < 20` lets it join the first event's container as a row, changing event 0's
width from `{100, '%'}` to `{85, '%'}`. -/
theorem c8_counterexample :
    (∀ p ∈ c8L, p.endMs ≤ c8E.startMs) ∧
    (getStyledEvents 20 c8L).map (fun out => out.find? (fun s => s.id == 0)) ≠
      (getStyledEvents 20 (c8L ++ [c8E])).map
        (fun out => out.find? (fun s => s.id == 0)) := by
  constructor
  · decide
  · decide

end DayEventLayout
